import Mathlib

/-!
Verification of the GL(2,R)-orbit-closure tangent-space engine of
sage-flatsurf (`flatsurf/geometry/gl2r_orbit_closure.py`).

The development shallowly embeds the Python code: matrices over the exact
base field are modelled as functions `Fin d → ℚ` (the rational instantiation
of Sage's exact fields), Sage's `Matrix.rank` (an external library call) is
modelled by an executable Gaussian-elimination rank `rankL` which is proved
to compute the dimension of the span of the rows, and the stateful methods
of `GL2ROrbitClosure` become explicit state-passing functions.
-/

open Module Submodule

namespace SageFlatsurf

/-- Row vectors over the rational instantiation of the exact base field. -/
abbrev Vec (d : ℕ) := Fin d → ℚ

/-- First nonzero coordinate of a row, if any (pivot search of the
rank computation that models Sage's `Matrix.rank`). -/
def findPivot {d : ℕ} (v : Vec d) : Option (Fin d) :=
  (List.finRange d).find? (fun j => decide (v j ≠ 0))

/-- One elimination step: subtract the multiple of the pivot row `v`
that clears column `j` of `w`. -/
def elimRow {d : ℕ} (v : Vec d) (j : Fin d) (w : Vec d) : Vec d :=
  fun k => w k - (w j / v j) * v k

/-- Fuel-indexed Gaussian elimination; the fuel is always instantiated
with the length of the list, so the fuel-exhausted arm is never taken. -/
def rankAux {d : ℕ} : ℕ → List (Vec d) → ℕ
  | 0, _ => 0
  | fuel + 1, L =>
    match L with
    | [] => 0
    | v :: rest =>
      match findPivot v with
      | none => rankAux fuel rest
      | some j => rankAux fuel (rest.map (elimRow v j)) + 1

/-- Executable row rank of a list of rows, by Gaussian elimination.
This models the external Sage library call `Matrix.rank()` used by
`GL2ROrbitClosure.update_tangent_space_from_flow_decomposition` and the
rank assertions of `_spanning_tree`. -/
def rankL {d : ℕ} (L : List (Vec d)) : ℕ := rankAux L.length L

theorem rankL_nil {d : ℕ} : rankL ([] : List (Vec d)) = 0 := rfl

theorem rankL_cons_none {d : ℕ} {v : Vec d} {rest : List (Vec d)}
    (hpiv : findPivot v = none) : rankL (v :: rest) = rankL rest := by
  show rankAux (rest.length + 1) (v :: rest) = rankL rest
  simp only [rankAux, hpiv]
  rfl

theorem rankL_cons_some {d : ℕ} {v : Vec d} {rest : List (Vec d)} {j : Fin d}
    (hpiv : findPivot v = some j) :
    rankL (v :: rest) = rankL (rest.map (elimRow v j)) + 1 := by
  show rankAux (rest.length + 1) (v :: rest) = rankL (rest.map (elimRow v j)) + 1
  simp only [rankAux, hpiv]
  show _ = rankAux (rest.map (elimRow v j)).length _ + 1
  rw [List.length_map]

theorem findPivot_eq_none {d : ℕ} {v : Vec d} (h : findPivot v = none) : v = 0 := by
  funext j
  have := List.find?_eq_none.mp h j (List.mem_finRange j)
  simpa using this

theorem findPivot_eq_some {d : ℕ} {v : Vec d} {j : Fin d} (h : findPivot v = some j) :
    v j ≠ 0 := by
  have := List.find?_some h
  simpa using this

theorem elimRow_eq_sub_smul {d : ℕ} (v : Vec d) (j : Fin d) (w : Vec d) :
    elimRow v j w = w - (w j / v j) • v := by
  funext k
  simp [elimRow, smul_eq_mul]

theorem elimRow_apply_pivot {d : ℕ} {v : Vec d} {j : Fin d} (hv : v j ≠ 0) (w : Vec d) :
    elimRow v j w j = 0 := by
  simp [elimRow]
  field_simp

/-- Elimination does not change the span of the rows (together with the
pivot row). -/
theorem span_insert_elimRow {d : ℕ} (v : Vec d) (j : Fin d) (rest : List (Vec d)) :
    span ℚ (insert v {x | x ∈ rest.map (elimRow v j)}) =
      span ℚ (insert v {x | x ∈ rest}) := by
  apply le_antisymm
  · rw [span_le]
    rintro x hx
    rcases Set.mem_insert_iff.mp hx with rfl | hx
    · exact subset_span (Set.mem_insert _ _)
    · obtain ⟨w, hw, rfl⟩ := List.mem_map.mp hx
      have hv : v ∈ span ℚ (insert v {x | x ∈ rest}) := subset_span (Set.mem_insert _ _)
      have hw' : w ∈ span ℚ (insert v {x | x ∈ rest}) :=
        subset_span (Set.mem_insert_of_mem _ hw)
      rw [elimRow_eq_sub_smul]
      exact sub_mem hw' (smul_mem _ _ hv)
  · rw [span_le]
    rintro x hx
    rcases Set.mem_insert_iff.mp hx with rfl | hx
    · exact subset_span (Set.mem_insert _ _)
    · have hv : v ∈ span ℚ (insert v {x | x ∈ rest.map (elimRow v j)}) :=
        subset_span (Set.mem_insert _ _)
      have he : elimRow v j x ∈ span ℚ (insert v {x | x ∈ rest.map (elimRow v j)}) :=
        subset_span (Set.mem_insert_of_mem _ (List.mem_map_of_mem _ hx))
      have : x = elimRow v j x + (x j / v j) • v := by
        rw [elimRow_eq_sub_smul]; abel
      rw [this]
      exact add_mem he (smul_mem _ _ hv)

/-- A vector with nonzero `j`-th coordinate is not in the span of vectors
whose `j`-th coordinate vanishes. -/
theorem not_mem_span_of_apply_ne {d : ℕ} {v : Vec d} {j : Fin d} (hv : v j ≠ 0)
    (S : Set (Vec d)) (hS : ∀ w ∈ S, w j = 0) : v ∉ span ℚ S := by
  intro hmem
  have hker : span ℚ S ≤ LinearMap.ker (LinearMap.proj (R := ℚ) (φ := fun _ : Fin d => ℚ) j) := by
    rw [span_le]
    intro w hw
    simpa [LinearMap.mem_ker] using hS w hw
  exact hv (by simpa using hker hmem)

theorem finrank_span_insert_of_not_mem {d : ℕ} (S : Set (Vec d)) (v : Vec d)
    (hv : v ∉ span ℚ S) :
    finrank ℚ (span ℚ (insert v S)) = finrank ℚ (span ℚ S) + 1 := by
  have hvne : v ≠ 0 := fun h => hv (h ▸ zero_mem _)
  have h1 : span ℚ (insert v S) = span ℚ S ⊔ span ℚ {v} := by
    rw [← span_union, Set.insert_eq, Set.union_comm]
  have hinf : span ℚ S ⊓ span ℚ {v} = ⊥ := by
    rw [eq_bot_iff]
    rintro x hx
    rcases Submodule.mem_inf.mp hx with ⟨hxS, hxv⟩
    rw [mem_span_singleton] at hxv
    obtain ⟨c, rfl⟩ := hxv
    rcases eq_or_ne c 0 with rfl | hc
    · simp
    · exfalso
      apply hv
      have := smul_mem (span ℚ S) c⁻¹ hxS
      rwa [smul_smul, inv_mul_cancel₀ hc, one_smul] at this
  have hsum := Submodule.finrank_sup_add_finrank_inf_eq (span ℚ S) (span ℚ {v})
  rw [hinf, finrank_bot, add_zero] at hsum
  rw [h1, hsum, finrank_span_singleton hvne]

/-- The executable rank equals the dimension of the span of the rows:
`rankL` is a faithful model of the external `Matrix.rank`. -/
theorem rankL_eq {d : ℕ} (L : List (Vec d)) :
    rankL L = finrank ℚ (span ℚ {x | x ∈ L}) := by
  generalize hn : L.length = n
  induction n using Nat.strong_induction_on generalizing L with
  | _ n ih =>
    cases L with
    | nil =>
        rw [rankL_nil]
        have : {x : Vec d | x ∈ ([] : List (Vec d))} = (∅ : Set (Vec d)) := by
          ext x; simp
        rw [this, span_empty, finrank_bot]
    | cons v rest =>
        simp only [List.length_cons] at hn
        have hset : {x : Vec d | x ∈ v :: rest} = insert v {x | x ∈ rest} := by
          ext x; simp [List.mem_cons]
        rcases hpiv : findPivot v with _ | j
        · have hv0 : v = 0 := findPivot_eq_none hpiv
          rw [rankL_cons_none hpiv, ih rest.length (by omega) rest rfl, hset, hv0,
            span_insert_zero]
        · have hvj : v j ≠ 0 := findPivot_eq_some hpiv
          rw [rankL_cons_some hpiv,
            ih (rest.map (elimRow v j)).length (by simp [List.length_map]; omega) _ rfl]
          rw [hset, ← span_insert_elimRow v j rest]
          rw [finrank_span_insert_of_not_mem _ v ?_]
          apply not_mem_span_of_apply_ne hvj
          intro w hw
          obtain ⟨w', _, rfl⟩ := List.mem_map.mp hw
          exact elimRow_apply_pivot hvj w'

theorem rankL_le_length {d : ℕ} (L : List (Vec d)) : rankL L ≤ L.length := by
  generalize hn : L.length = n
  induction n using Nat.strong_induction_on generalizing L with
  | _ n ih =>
    cases L with
    | nil => simp [rankL_nil]
    | cons v rest =>
        simp only [List.length_cons] at hn
        rcases hpiv : findPivot v with _ | j
        · have := ih rest.length (by omega) rest rfl
          rw [rankL_cons_none hpiv]
          omega
        · have := ih (rest.map (elimRow v j)).length (by simp [List.length_map]; omega)
            (rest.map (elimRow v j)) rfl
          rw [rankL_cons_some hpiv]
          simp only [List.length_map] at this
          omega

theorem range_get_eq_members {α : Type*} (L : List α) :
    Set.range L.get = {x | x ∈ L} := by
  ext a
  simp [List.mem_iff_get, Set.mem_range, eq_comm]

/-- A list of rows has full executable rank iff the rows are linearly
independent. -/
theorem rankL_eq_length_iff {d : ℕ} (L : List (Vec d)) :
    rankL L = L.length ↔ LinearIndependent ℚ L.get := by
  rw [linearIndependent_iff_card_eq_finrank_span, Set.finrank, range_get_eq_members,
    ← rankL_eq]
  simp [eq_comm]

/-!
## TangentSpaceAccumulator
Embedding of `GL2ROrbitClosure.update_tangent_space_from_flow_decomposition`
(gl2r_orbit_closure.py, lines 859-886).  The state is the matrix `_U`
(list of rows) together with the tracked rank `_U_rank`.
-/

/-- The mutable state `(_U, _U_rank)` of a `GL2ROrbitClosure` instance. -/
structure TangentState (d : ℕ) where
  U : List (Vec d)
  Urank : ℕ

/-- The `for v in decomposition.cylinder_deformation_subspace():` loop of
`update_tangent_space_from_flow_decomposition`: write the candidate into
row `i`, recompute the rank, commit (`i += 1`) if it increased, with the
early `return` once `_U_rank == _U.nrows()`. -/
def updLoop {d : ℕ} (U : List (Vec d)) (i : ℕ) :
    List (Vec d) → List (Vec d) × ℕ
  | [] => (U, i)
  | v :: vs =>
    let U' := U.set i v
    let r := rankL U'
    if i < r then
      if i + 1 = U'.length then (U', i + 1)
      else updLoop U' (i + 1) vs
    else updLoop U' i vs

/-- `update_tangent_space_from_flow_decomposition`, applied to the list of
candidate vectors returned by `cylinder_deformation_subspace`. -/
def update_tangent_space {d : ℕ} (ts : TangentState d) (vectors : List (Vec d)) :
    TangentState d :=
  if ts.Urank = ts.U.length then ts
  else ⟨(updLoop ts.U ts.Urank vectors).1, (updLoop ts.U ts.Urank vectors).2⟩

/-- Invariant of the accumulator state established at construction
(`_U[:2] = H.transpose(); _U_rank = 2`): the tracked rank is within
bounds, the committed rows are linearly independent, and the rows
strictly above the tracked rank are still zero (they are never written). -/
structure AccInv {d : ℕ} (U : List (Vec d)) (i : ℕ) : Prop where
  rank_le : i ≤ U.length
  indep : LinearIndependent ℚ (U.take i).get
  tail_zero : ∀ k, (hk : k < U.length) → i < k → U[k] = 0

theorem take_set_self {α : Type*} (U : List α) (i : ℕ) (v : α) :
    (U.set i v).take i = U.take i := by
  apply List.ext_getElem (by simp)
  intro k hk1 hk2
  have hki : k < i := by
    simp only [List.length_take, List.length_set, lt_inf_iff] at hk1
    exact hk1.1
  rw [List.getElem_take, List.getElem_take, List.getElem_set_ne (by omega)]

/-- Writing the candidate into row `_U_rank` makes the row set span the
same space as the committed rows together with the candidate (rows above
`_U_rank` are zero). -/
theorem span_set_members {d : ℕ} {U : List (Vec d)} {i : ℕ} (v : Vec d)
    (hlen : i < U.length)
    (htail : ∀ k, (hk : k < U.length) → i < k → U[k] = 0) :
    span ℚ {x | x ∈ U.set i v} = span ℚ (insert v {x | x ∈ U.take i}) := by
  apply le_antisymm
  · rw [span_le]
    intro x hx
    obtain ⟨k, hk, hget⟩ := List.mem_iff_getElem.mp hx
    have hk' : k < U.length := by simpa using hk
    rcases lt_trichotomy k i with hki | rfl | hki
    · apply subset_span
      apply Set.mem_insert_of_mem
      rw [← hget, List.getElem_set_ne (by omega)]
      refine List.mem_iff_getElem.mpr ⟨k, ?_, ?_⟩
      · simp only [List.length_take, lt_inf_iff]
        exact ⟨hki, hk'⟩
      · rw [List.getElem_take]
    · rw [List.getElem_set_self] at hget
      rw [← hget]
      exact subset_span (Set.mem_insert _ _)
    · rw [List.getElem_set_ne (by omega)] at hget
      rw [← hget, htail k hk' hki]
      exact zero_mem _
  · rw [span_le]
    intro x hx
    rcases Set.mem_insert_iff.mp hx with rfl | hx
    · apply subset_span
      exact List.mem_iff_getElem.mpr ⟨i, by simpa using hlen, List.getElem_set_self _⟩
    · obtain ⟨k, hk, hget⟩ := List.mem_iff_getElem.mp hx
      have hki : k < i := by
        simp only [List.length_take, lt_inf_iff] at hk
        exact hk.1
      apply subset_span
      refine List.mem_iff_getElem.mpr ⟨k, by simp; omega, ?_⟩
      rw [List.getElem_set_ne (by omega), ← hget, List.getElem_take]

theorem finrank_span_take {d : ℕ} {U : List (Vec d)} {i : ℕ} (hi : i ≤ U.length)
    (hindep : LinearIndependent ℚ (U.take i).get) :
    finrank ℚ (span ℚ {x | x ∈ U.take i}) = i := by
  have hlen : (U.take i).length = i := by
    simp only [List.length_take]
    omega
  have h := (rankL_eq_length_iff (U.take i)).mpr hindep
  rw [hlen] at h
  rw [← rankL_eq, h]

/-- A single candidate insertion can raise the rank by at most one
(the `assert r == i+1` of the source). -/
theorem rank_set_le {d : ℕ} {U : List (Vec d)} {i : ℕ} (v : Vec d)
    (hlen : i < U.length)
    (hindep : LinearIndependent ℚ (U.take i).get)
    (htail : ∀ k, (hk : k < U.length) → i < k → U[k] = 0) :
    rankL (U.set i v) ≤ i + 1 := by
  rw [rankL_eq, span_set_members v hlen htail]
  by_cases hv : v ∈ span ℚ {x | x ∈ U.take i}
  · rw [span_insert_eq_span hv, finrank_span_take (le_of_lt hlen) hindep]
    omega
  · rw [finrank_span_insert_of_not_mem _ v hv, finrank_span_take (le_of_lt hlen) hindep]

/-- Inserting a candidate already in the span of the committed rows leaves
the computed rank unchanged. -/
theorem rank_set_of_mem_span {d : ℕ} {U : List (Vec d)} {i : ℕ} {v : Vec d}
    (hlen : i < U.length)
    (hindep : LinearIndependent ℚ (U.take i).get)
    (htail : ∀ k, (hk : k < U.length) → i < k → U[k] = 0)
    (hv : v ∈ span ℚ {x | x ∈ U.take i}) :
    rankL (U.set i v) = i := by
  rw [rankL_eq, span_set_members v hlen htail, span_insert_eq_span hv,
    finrank_span_take (le_of_lt hlen) hindep]

theorem take_succ_set {d : ℕ} {U : List (Vec d)} {i : ℕ} (v : Vec d)
    (hlen : i < U.length) :
    (U.set i v).take (i + 1) = U.take i ++ [v] := by
  rw [List.set_eq_take_cons_drop v hlen]
  have h1 : U.take i ++ v :: U.drop (i + 1) = (U.take i ++ [v]) ++ U.drop (i + 1) := by
    simp
  rw [h1, List.take_append_of_le_length (by simp [List.length_take]; omega)]
  apply List.take_of_length_le
  simp only [List.length_append, List.length_take, List.length_singleton]
  omega

/-- When the recomputed rank increased, the newly committed rows (old
committed rows plus the candidate) are linearly independent. -/
theorem indep_commit {d : ℕ} {U : List (Vec d)} {i : ℕ} {v : Vec d}
    (hlen : i < U.length)
    (htail : ∀ k, (hk : k < U.length) → i < k → U[k] = 0)
    (hr : rankL (U.set i v) = i + 1) :
    LinearIndependent ℚ ((U.set i v).take (i + 1)).get := by
  rw [← rankL_eq_length_iff]
  have hlen2 : ((U.set i v).take (i + 1)).length = i + 1 := by
    simp only [List.length_take, List.length_set]
    omega
  rw [hlen2]
  have hmem : {x | x ∈ (U.set i v).take (i + 1)} = insert v {x | x ∈ U.take i} := by
    rw [take_succ_set v hlen]
    ext x
    simp only [Set.mem_setOf_eq, List.mem_append, List.mem_singleton, Set.mem_insert_iff]
    tauto
  rw [rankL_eq, hmem, ← span_set_members v hlen htail, ← rankL_eq, hr]


/-- Main invariant preservation for the candidate loop. -/
theorem updLoop_spec {d : ℕ} (vs : List (Vec d)) : ∀ (U : List (Vec d)) (i : ℕ),
    AccInv U i → i < U.length →
    AccInv (updLoop U i vs).1 (updLoop U i vs).2 ∧
    i ≤ (updLoop U i vs).2 ∧
    (updLoop U i vs).2 ≤ (updLoop U i vs).1.length ∧
    (updLoop U i vs).1.length = U.length ∧
    (updLoop U i vs).1.take i = U.take i := by
  induction vs with
  | nil =>
      intro U i hinv hlen
      exact ⟨hinv, le_refl _, hinv.rank_le, rfl, rfl⟩
  | cons v vs ih =>
      intro U i hinv hlen
      have htail := hinv.tail_zero
      have hindep := hinv.indep
      have hlen' : (U.set i v).length = U.length := List.length_set ..
      have htail' : ∀ k, (hk : k < (U.set i v).length) → i < k → (U.set i v)[k] = 0 := by
        intro k hk hik
        rw [List.getElem_set_ne (by omega)]
        exact htail k (by omega) hik
      have hindep' : LinearIndependent ℚ ((U.set i v).take i).get := by
        rw [take_set_self]; exact hindep
      have hinv' : AccInv (U.set i v) i := ⟨by omega, hindep', htail'⟩
      have hrle : rankL (U.set i v) ≤ i + 1 := rank_set_le v hlen hindep htail
      simp only [updLoop]
      by_cases hr : i < rankL (U.set i v)
      · have hreq : rankL (U.set i v) = i + 1 := by omega
        have hcommit : LinearIndependent ℚ ((U.set i v).take (i + 1)).get :=
          indep_commit hlen htail hreq
        have htail2 : ∀ k, (hk : k < (U.set i v).length) → i + 1 < k → (U.set i v)[k] = 0 := by
          intro k hk hik
          exact htail' k hk (by omega)
        have hinv2 : AccInv (U.set i v) (i + 1) := ⟨by omega, hcommit, htail2⟩
        rw [if_pos hr]
        by_cases hfull : i + 1 = (U.set i v).length
        · rw [if_pos hfull]
          show AccInv (U.set i v) (i + 1) ∧ i ≤ i + 1 ∧ i + 1 ≤ (U.set i v).length ∧
            (U.set i v).length = U.length ∧ (U.set i v).take i = U.take i
          refine ⟨hinv2, by omega, by omega, hlen', take_set_self U i v⟩
        · rw [if_neg hfull]
          have hlt2 : i + 1 < (U.set i v).length := by omega
          obtain ⟨h1, h2, h3, h4, h5⟩ := ih (U.set i v) (i + 1) hinv2 hlt2
          refine ⟨h1, by omega, h3, by rw [h4, hlen'], ?_⟩
          have : (updLoop (U.set i v) (i + 1) vs).1.take i =
              ((updLoop (U.set i v) (i + 1) vs).1.take (i + 1)).take i := by
            rw [List.take_take]
            congr 1
            omega
          rw [this, h5]
          rw [List.take_take]
          have hmin : i ⊓ (i + 1) = i := by omega
          rw [hmin, take_set_self]
      · rw [if_neg hr]
        obtain ⟨h1, h2, h3, h4, h5⟩ := ih (U.set i v) i hinv' (by omega)
        refine ⟨h1, h2, h3, by rw [h4, hlen'], ?_⟩
        rw [h5, take_set_self]

/-- Single-call invariant preservation and monotonicity for
`update_tangent_space_from_flow_decomposition`. -/
theorem update_tangent_space_spec {d : ℕ} (ts : TangentState d)
    (vectors : List (Vec d)) (hinv : AccInv ts.U ts.Urank) :
    AccInv (update_tangent_space ts vectors).U (update_tangent_space ts vectors).Urank ∧
    ts.Urank ≤ (update_tangent_space ts vectors).Urank ∧
    (update_tangent_space ts vectors).Urank ≤ (update_tangent_space ts vectors).U.length := by
  unfold update_tangent_space
  by_cases hfull : ts.Urank = ts.U.length
  · rw [if_pos hfull]
    exact ⟨hinv, le_refl _, hinv.rank_le⟩
  · rw [if_neg hfull]
    have hlt : ts.Urank < ts.U.length := lt_of_le_of_ne hinv.rank_le hfull
    obtain ⟨h1, h2, h3, _, _⟩ := updLoop_spec vectors ts.U ts.Urank hinv hlt
    exact ⟨h1, h2, h3⟩

/-- Once the tracked rank equals the row count, further inserts are
no-ops (the short-circuit `return` at the top of the method). -/
theorem update_tangent_space_full {d : ℕ} (ts : TangentState d)
    (hfull : ts.Urank = ts.U.length) (vectors : List (Vec d)) :
    update_tangent_space ts vectors = ts := by
  unfold update_tangent_space
  simp [hfull]


theorem foldl_update_spec {d : ℕ} (batches : List (List (Vec d))) :
    ∀ ts : TangentState d, AccInv ts.U ts.Urank →
    AccInv (batches.foldl update_tangent_space ts).U
        (batches.foldl update_tangent_space ts).Urank ∧
    ts.Urank ≤ (batches.foldl update_tangent_space ts).Urank ∧
    (batches.foldl update_tangent_space ts).Urank ≤
        (batches.foldl update_tangent_space ts).U.length := by
  induction batches with
  | nil => intro ts hinv; exact ⟨hinv, le_refl _, hinv.rank_le⟩
  | cons b bs ih =>
      intro ts hinv
      obtain ⟨h1, h2, _⟩ := update_tangent_space_spec ts b hinv
      obtain ⟨g1, g2, g3⟩ := ih (update_tangent_space ts b) h1
      exact ⟨g1, le_trans h2 g2, g3⟩

/-- C4.  Across any sequence of calls to
`update_tangent_space_from_flow_decomposition` (each processing a batch of
candidate deformation vectors), the tracked rank `_U_rank` is
non-decreasing, never exceeds the row count of `_U`, each single candidate
insertion raises the computed rank by at most 1, the first `_U_rank` rows
of `_U` stay linearly independent, and once `_U_rank` equals the row count
further inserts are no-ops. -/
theorem claim_C4_accumulator_invariants {d : ℕ} (ts : TangentState d)
    (batches : List (List (Vec d))) (hinv : AccInv ts.U ts.Urank) :
    AccInv (batches.foldl update_tangent_space ts).U
        (batches.foldl update_tangent_space ts).Urank ∧
    ts.Urank ≤ (batches.foldl update_tangent_space ts).Urank ∧
    (batches.foldl update_tangent_space ts).Urank ≤
        (batches.foldl update_tangent_space ts).U.length ∧
    (∀ (U : List (Vec d)) (i : ℕ) (v : Vec d), AccInv U i → i < U.length →
      rankL (U.set i v) ≤ i + 1) ∧
    (ts.Urank = ts.U.length → ∀ vectors, update_tangent_space ts vectors = ts) := by
  obtain ⟨h1, h2, h3⟩ := foldl_update_spec batches ts hinv
  refine ⟨h1, h2, h3, ?_, ?_⟩
  · intro U i v hi hlen
    exact rank_set_le v hlen hi.indep hi.tail_zero
  · intro hfull vectors
    exact update_tangent_space_full ts hfull vectors

theorem accInv_of_rankL {d : ℕ} {U : List (Vec d)} {i : ℕ} (h1 : i ≤ U.length)
    (h2 : rankL (U.take i) = i)
    (h3 : ∀ k, (hk : k < U.length) → i < k → U[k] = 0) : AccInv U i := by
  refine ⟨h1, ?_, h3⟩
  have hl : (U.take i).length = i := by
    simp only [List.length_take]
    omega
  rw [← rankL_eq_length_iff, h2, hl]

theorem claim_C4_accumulator_invariants_witness :
    (AccInv (([[fun _ => 1]] : List (List (Vec 1))).foldl update_tangent_space
        ⟨[0], 0⟩).U
      (([[fun _ => 1]] : List (List (Vec 1))).foldl update_tangent_space
        ⟨[0], 0⟩).Urank ∧
    (⟨[0], 0⟩ : TangentState 1).Urank ≤
      (([[fun _ => 1]] : List (List (Vec 1))).foldl update_tangent_space
        ⟨[0], 0⟩).Urank ∧
    (([[fun _ => 1]] : List (List (Vec 1))).foldl update_tangent_space
        ⟨[0], 0⟩).Urank ≤
      (([[fun _ => 1]] : List (List (Vec 1))).foldl update_tangent_space
        ⟨[0], 0⟩).U.length ∧
    (∀ (U : List (Vec 1)) (i : ℕ) (v : Vec 1), AccInv U i → i < U.length →
      rankL (U.set i v) ≤ i + 1) ∧
    ((⟨[0], 0⟩ : TangentState 1).Urank = (⟨[0], 0⟩ : TangentState 1).U.length →
      ∀ vectors, update_tangent_space (⟨[0], 0⟩ : TangentState 1) vectors =
        (⟨[0], 0⟩ : TangentState 1))) :=
  claim_C4_accumulator_invariants ⟨[0], 0⟩ [[fun _ => 1]]
    (accInv_of_rankL (U := ([0] : List (Vec 1))) (i := 0) (by simp) rfl
      (by
        intro k hk h
        simp only [List.length_cons, List.length_nil] at hk
        omega))

/-- C8.  Inserting a candidate vector already contained in the linear span
of the committed rows of `_U` leaves the tracked rank `_U_rank` unchanged
and leaves the committed rows (rows `0` through `_U_rank - 1`) unchanged. -/
theorem claim_C8_insert_idempotent {d : ℕ} (ts : TangentState d) (v : Vec d)
    (hinv : AccInv ts.U ts.Urank)
    (hspan : v ∈ span ℚ {x | x ∈ ts.U.take ts.Urank}) :
    (update_tangent_space ts [v]).Urank = ts.Urank ∧
    (update_tangent_space ts [v]).U.take ts.Urank = ts.U.take ts.Urank := by
  unfold update_tangent_space
  by_cases hfull : ts.Urank = ts.U.length
  · rw [if_pos hfull]
    simp
  · rw [if_neg hfull]
    have hlt : ts.Urank < ts.U.length := lt_of_le_of_ne hinv.rank_le hfull
    have hrank := rank_set_of_mem_span hlt hinv.indep hinv.tail_zero hspan
    simp only [updLoop, hrank, lt_irrefl, if_false]
    exact ⟨trivial, take_set_self _ _ _⟩

theorem claim_C8_insert_idempotent_witness :
    ((update_tangent_space (⟨[fun _ => 1, 0], 1⟩ : TangentState 1)
        [fun _ => 2]).Urank = (⟨[fun _ => 1, 0], 1⟩ : TangentState 1).Urank ∧
    (update_tangent_space (⟨[fun _ => 1, 0], 1⟩ : TangentState 1)
        [fun _ => 2]).U.take (⟨[fun _ => 1, 0], 1⟩ : TangentState 1).Urank =
      (⟨[fun _ => 1, 0], 1⟩ : TangentState 1).U.take
        (⟨[fun _ => 1, 0], 1⟩ : TangentState 1).Urank) := by
  apply claim_C8_insert_idempotent (⟨[fun _ => 1, 0], 1⟩ : TangentState 1) (fun _ => 2)
  · exact accInv_of_rankL (U := ([fun _ => 1, 0] : List (Vec 1))) (i := 1)
      (by simp) (by decide)
      (by
        intro k hk h
        simp only [List.length_cons, List.length_nil] at hk
        omega)
  · show (fun _ : Fin 1 => (2 : ℚ)) ∈
      span ℚ {x | x ∈ List.take 1 ([fun _ => 1, 0] : List (Vec 1))}
    have h2 : (fun _ : Fin 1 => (2 : ℚ)) = (2 : ℚ) • (fun _ : Fin 1 => (1 : ℚ)) := by
      funext k
      norm_num
    rw [h2]
    exact smul_mem _ _ (subset_span (by simp))

/-!
## CylinderDeformationSolver
Embedding of `Decomposition.cylinder_deformation_subspace`
(gl2r_orbit_closure.py, lines 293-327).  The per-component data produced
by the external flow-decomposition adapter and by `circumference_width`
(classification tribool, circumference in the spanning-set basis, width,
circumference holonomy, area) is carried in a `Component` record.
-/

/-- Tri-state classification of a flow-decomposition component: the
tribool `comp.cylinder()` is `True` (cylinder), `False` (certainly
minimal, i.e. `withoutPeriodicTrajectory()`), or indeterminate. -/
inductive CompKind
  | cylinder
  | minimal
  | undetermined
deriving DecidableEq

/-- Data of one flow-decomposition component as consumed by
`cylinder_deformation_subspace`: for cylinder components, `circ` and
`width` are the values returned by `circumference_width`, and `hol` and
`area` the circumference holonomy and area read from the component. -/
structure Component (d : ℕ) where
  kind : CompKind
  circ : Vec d
  width : ℚ
  hol : ℚ × ℚ
  area : ℚ

/-- The `for comp in self.decomposition.components():` loop of
`cylinder_deformation_subspace`: a component with `cylinder() == False`
is skipped (`continue`), a cylinder contributes `width * circ` to
`vcyls` and its modulus `area / (hol[0]^2 + hol[1]^2)` to `modules`,
and an undetermined component aborts with `return []` (modelled as
`none`). -/
def cylinderLoop {d : ℕ} : List (Component d) → Option (List (Vec d) × List ℚ)
  | [] => some ([], [])
  | comp :: rest =>
    match comp.kind with
    | CompKind.minimal => cylinderLoop rest
    | CompKind.cylinder =>
      match cylinderLoop rest with
      | none => none
      | some (vcyls, modules) =>
        some ((comp.width • comp.circ) :: vcyls,
          (comp.area / (comp.hol.1 ^ 2 + comp.hol.2 ^ 2)) :: modules)
    | CompKind.undetermined => none

/-- `cylinder_deformation_subspace`, parametrized by the post-processing
of the collected `vcyls` and `modules` (the branch on
`V2.sage_base_ring`: a single combined vector over `ZZ`/`QQ`, kernel
combinations over a number field). -/
def cylinder_deformation_subspace_gen {d : ℕ}
    (post : List (Vec d) → List ℚ → List (Vec d))
    (comps : List (Component d)) : List (Vec d) :=
  match cylinderLoop comps with
  | none => []
  | some (vcyls, modules) => post vcyls modules

/-- The `ZZ`/`QQ` (rational coefficients) instantiation of
`cylinder_deformation_subspace`: `vectors.append(sum(vcyls))`. -/
def cylinder_deformation_subspace {d : ℕ} (comps : List (Component d)) :
    List (Vec d) :=
  cylinder_deformation_subspace_gen (fun vcyls _ => [vcyls.sum]) comps

theorem cylinderLoop_eq_none_of_undetermined {d : ℕ} (comps : List (Component d))
    (h : ∃ c ∈ comps, c.kind = CompKind.undetermined) :
    cylinderLoop comps = none := by
  induction comps with
  | nil => obtain ⟨c, hc, _⟩ := h; simp at hc
  | cons comp rest ih =>
      obtain ⟨c, hc, hk⟩ := h
      rcases List.mem_cons.mp hc with rfl | hc
      · simp only [cylinderLoop, hk]
      · have hrest := ih ⟨c, hc, hk⟩
        cases hcomp : comp.kind with
        | minimal => simp only [cylinderLoop, hcomp, hrest]
        | cylinder => simp only [cylinderLoop, hcomp, hrest]
        | undetermined => simp only [cylinderLoop, hcomp]

theorem update_tangent_space_empty {d : ℕ} (ts : TangentState d) :
    update_tangent_space ts [] = ts := by
  unfold update_tangent_space
  by_cases hfull : ts.Urank = ts.U.length
  · rw [if_pos hfull]
  · rw [if_neg hfull]
    rfl

/-- C3.  A flow decomposition containing an undetermined component makes
`cylinder_deformation_subspace` return the empty list (in either base
ring branch), and this is not an error: the accumulator state is
unchanged by feeding the result to
`update_tangent_space_from_flow_decomposition`, so exploration can
continue with further directions. -/
theorem claim_C3_undetermined_empty {d : ℕ}
    (post : List (Vec d) → List ℚ → List (Vec d))
    (comps : List (Component d))
    (h : ∃ c ∈ comps, c.kind = CompKind.undetermined) :
    cylinder_deformation_subspace_gen post comps = [] ∧
    ∀ ts : TangentState d,
      update_tangent_space ts (cylinder_deformation_subspace_gen post comps) = ts := by
  have hnone := cylinderLoop_eq_none_of_undetermined comps h
  have hempty : cylinder_deformation_subspace_gen post comps = [] := by
    unfold cylinder_deformation_subspace_gen
    rw [hnone]
  refine ⟨hempty, fun ts => ?_⟩
  rw [hempty]
  exact update_tangent_space_empty ts

theorem claim_C3_undetermined_empty_witness :
    (cylinder_deformation_subspace_gen (d := 1) (fun vcyls _ => [vcyls.sum])
        [⟨CompKind.undetermined, 0, 0, (0, 0), 0⟩] = [] ∧
    ∀ ts : TangentState 1,
      update_tangent_space ts
        (cylinder_deformation_subspace_gen (fun vcyls _ => [vcyls.sum])
          [⟨CompKind.undetermined, 0, 0, (0, 0), 0⟩]) = ts) :=
  claim_C3_undetermined_empty (fun vcyls _ => [vcyls.sum])
    [⟨CompKind.undetermined, 0, 0, (0, 0), 0⟩]
    ⟨⟨CompKind.undetermined, 0, 0, (0, 0), 0⟩, by simp, rfl⟩

/-- The claim C1 as stated: any decomposition with a certainly-minimal
component yields an empty deformation subspace. -/
def C1Statement : Prop :=
  ∀ (d : ℕ) (comps : List (Component d)),
    (∃ c ∈ comps, c.kind = CompKind.minimal) →
    cylinder_deformation_subspace comps = []

/-- C1 is false on the code: a decomposition with one certainly-minimal
component and one cylinder produces a nonempty deformation list — the
minimal branch is `continue`, not `return []`. -/
theorem claim_C1_counterexample : ¬ C1Statement := by
  intro h
  have := h 1
    [⟨CompKind.minimal, 0, 0, (0, 0), 0⟩,
     ⟨CompKind.cylinder, fun _ => 1, 1, (1, 0), 1⟩]
    ⟨⟨CompKind.minimal, 0, 0, (0, 0), 0⟩, by simp, rfl⟩
  revert this
  decide

/-- C1 amended: certainly-minimal components are skipped, and (in the
rational branch) the result is always the one-element list containing the
sum of `width * circumference` over the cylinder components — nonempty
even when minimal components are present. -/
theorem claim_C1_minimal_skipped {d : ℕ} (comps : List (Component d))
    (hund : ∀ c ∈ comps, c.kind ≠ CompKind.undetermined) :
    cylinder_deformation_subspace comps =
      [((comps.filter (fun c => decide (c.kind = CompKind.cylinder))).map
        (fun c => c.width • c.circ)).sum] := by
  have hloop : ∀ cs : List (Component d), (∀ c ∈ cs, c.kind ≠ CompKind.undetermined) →
      cylinderLoop cs = some
        (((cs.filter (fun c => decide (c.kind = CompKind.cylinder))).map
          (fun c => c.width • c.circ)),
         ((cs.filter (fun c => decide (c.kind = CompKind.cylinder))).map
          (fun c => c.area / (c.hol.1 ^ 2 + c.hol.2 ^ 2)))) := by
    intro cs
    induction cs with
    | nil => intro _; rfl
    | cons comp rest ih =>
        intro hcs
        have hrest := ih (fun c hc => hcs c (List.mem_cons_of_mem _ hc))
        cases hcomp : comp.kind with
        | minimal =>
            simp only [cylinderLoop, hcomp, hrest, List.filter_cons, hcomp]
            simp
        | cylinder =>
            simp only [cylinderLoop, hcomp, hrest, List.filter_cons, hcomp]
            simp
        | undetermined =>
            exact absurd hcomp (hcs comp (List.mem_cons_self _ _))
  unfold cylinder_deformation_subspace cylinder_deformation_subspace_gen
  rw [hloop comps hund]

theorem claim_C1_minimal_skipped_witness :
    cylinder_deformation_subspace (d := 1)
      [⟨CompKind.minimal, 0, 0, (0, 0), 0⟩,
       ⟨CompKind.cylinder, fun _ => 1, 1, (1, 0), 1⟩] =
      [(([⟨CompKind.minimal, 0, 0, (0, 0), 0⟩,
          ⟨CompKind.cylinder, fun _ => 1, 1, (1, 0), 1⟩] :
            List (Component 1)).filter
          (fun c => decide (c.kind = CompKind.cylinder))).map
        (fun c => c.width • c.circ)|>.sum] :=
  claim_C1_minimal_skipped _ (by decide)


/-!
## IntersectionFormComputer
Embedding of `GL2ROrbitClosure._intersection_matrix`
(gl2r_orbit_closure.py, lines 659-720).  The contour walk (external
surface navigation via `nextAtVertex`) is summarized by the contour
positions `contour_inv[e.positive()]`, `contour_inv[e.negative()]` of the
two half-edges of each spanning edge; the double loop filling `Omega`,
with the sign swaps, the no-intersection `continue`, the inner
`assert pi1 < pj2 < pi2` (modelled as an `Except` failure), and the pair
of writes `Omega[i,j]`, `Omega[j,i] = -Omega[i,j]`, is embedded
literally. -/

/-- Integer matrices indexed by the spanning set. -/
abbrev IntMatrix (d : ℕ) := Fin d → Fin d → ℤ

/-- Single entry assignment `M[a,b] = val`. -/
def matUpd {d : ℕ} (M : IntMatrix d) (a b : Fin d) (val : ℤ) : IntMatrix d :=
  fun x y => if x = a ∧ y = b then val else M x y

/-- The sign normalization `if p1 > p2: s = -1; p1, p2 = p2, p1`. -/
def omegaSigns (q1 q2 : ℕ) : ℤ × ℕ × ℕ :=
  if q1 > q2 then (-1, q2, q1) else (1, q1, q2)

/-- Body of the inner `for j in range(i+1, len(spanning_set))` loop. -/
def omegaStep {d : ℕ} (posP posN : Fin d → ℕ) (M : IntMatrix d) (i j : Fin d) :
    Except String (IntMatrix d) :=
  let ti := omegaSigns (posP i) (posN i)
  let si := ti.1
  let pi1 := ti.2.1
  let pi2 := ti.2.2
  let tj := omegaSigns (posP j) (posN j)
  let sj := tj.1
  let pj1 := tj.2.1
  let pj2 := tj.2.2
  if pj2 < pi1 ∨ pi2 < pj1 ∨ (pj1 > pi1 ∧ pj2 < pi2) ∨ (pj1 < pi1 ∧ pj2 > pi2) then
    Except.ok M
  else if pi1 < pj1 ∧ pj1 < pi2 then
    Except.ok (matUpd (matUpd M i j (si * sj)) j i (-(si * sj)))
  else if pi1 < pj2 ∧ pj2 < pi2 then
    Except.ok (matUpd (matUpd M i j (-(si * sj))) j i (si * sj))
  else
    Except.error "assert pi1 < pj2 < pi2 failed"

/-- The pairs `(i, j)`, `i < j`, in the order of the double loop. -/
def omegaPairs (d : ℕ) : List (Fin d × Fin d) :=
  (List.finRange d).flatMap
    (fun i => ((List.finRange d).filter (fun j => decide (i < j))).map (fun j => (i, j)))

/-- The double loop: thread the matrix through `omegaStep` over all
pairs, aborting on an assertion failure. -/
def omegaFold {d : ℕ} (posP posN : Fin d → ℕ) :
    IntMatrix d → List (Fin d × Fin d) → Except String (IntMatrix d)
  | M, [] => Except.ok M
  | M, p :: rest =>
    match omegaStep posP posN M p.1 p.2 with
    | Except.error e => Except.error e
    | Except.ok M1 => omegaFold posP posN M1 rest

/-- `GL2ROrbitClosure._intersection_matrix`: fill an initially-zero
matrix by the double loop. -/
def intersection_matrix {d : ℕ} (posP posN : Fin d → ℕ) :
    Except String (IntMatrix d) :=
  omegaFold posP posN (fun _ _ => 0) (omegaPairs d)

/-- Skew-symmetry of an integer matrix. -/
def IsSkew {d : ℕ} (M : IntMatrix d) : Prop := ∀ a b, M a b = - M b a

theorem matUpd_pair_skew {d : ℕ} {M : IntMatrix d} {i j : Fin d} (hij : i ≠ j)
    (hM : IsSkew M) (v w : ℤ) (hw : w = -v) :
    IsSkew (matUpd (matUpd M i j v) j i w) := by
  intro a b
  show (if a = j ∧ b = i then w else if a = i ∧ b = j then v else M a b) =
    -(if b = j ∧ a = i then w else if b = i ∧ a = j then v else M b a)
  by_cases h1 : a = j ∧ b = i
  · have hn : ¬(b = j ∧ a = i) := by
      intro hh
      exact hij (by rw [← hh.2, h1.1])
    rw [if_pos h1, if_neg hn, if_pos ⟨h1.2, h1.1⟩, hw]
  · by_cases h2 : a = i ∧ b = j
    · have hp : b = j ∧ a = i := ⟨h2.2, h2.1⟩
      rw [if_neg h1, if_pos h2, if_pos hp, hw]
      ring
    · have hn2 : ¬(b = j ∧ a = i) := fun hh => h2 ⟨hh.2, hh.1⟩
      have hn3 : ¬(b = i ∧ a = j) := fun hh => h1 ⟨hh.2, hh.1⟩
      rw [if_neg h1, if_neg h2, if_neg hn2, if_neg hn3]
      exact hM a b

theorem omegaStep_skew {d : ℕ} {posP posN : Fin d → ℕ} {M : IntMatrix d}
    {i j : Fin d} (hij : i ≠ j) (hM : IsSkew M) {M' : IntMatrix d}
    (h : omegaStep posP posN M i j = Except.ok M') : IsSkew M' := by
  simp only [omegaStep] at h
  split_ifs at h with h1 h2 h3
  · rw [Except.ok.injEq] at h
    rwa [← h]
  · rw [Except.ok.injEq] at h
    rw [← h]
    exact matUpd_pair_skew hij hM _ _ rfl
  · rw [Except.ok.injEq] at h
    rw [← h]
    exact matUpd_pair_skew hij hM _ _ (by ring)

theorem omegaFold_skew {d : ℕ} (posP posN : Fin d → ℕ) :
    ∀ (pairs : List (Fin d × Fin d)), (∀ p ∈ pairs, p.1 ≠ p.2) →
    ∀ M : IntMatrix d, IsSkew M → ∀ M' : IntMatrix d,
    omegaFold posP posN M pairs = Except.ok M' → IsSkew M' := by
  intro pairs
  induction pairs with
  | nil =>
      intro _ M hM M' h
      simp only [omegaFold, Except.ok.injEq] at h
      rwa [← h]
  | cons p rest ih =>
      intro hne M hM M' h
      simp only [omegaFold] at h
      cases hstep : omegaStep posP posN M p.1 p.2 with
      | error e =>
          rw [hstep] at h
          exact absurd h (by simp)
      | ok M1 =>
          rw [hstep] at h
          exact ih (fun q hq => hne q (List.mem_cons_of_mem _ hq)) M1
            (omegaStep_skew (hne p (List.mem_cons_self _ _)) hM hstep) M' h

theorem omegaPairs_ne {d : ℕ} : ∀ p ∈ omegaPairs d, p.1 ≠ p.2 := by
  intro p hp
  unfold omegaPairs at hp
  simp only [List.mem_flatMap, List.mem_map, List.mem_filter] at hp
  obtain ⟨i, _, j, ⟨_, hij⟩, rfl⟩ := hp
  have : i < j := of_decide_eq_true hij
  exact Fin.ne_of_lt this

/-- C5.  The intersection matrix `Omega` produced by
`_intersection_matrix` is skew-symmetric: `Omega[i,j] = -Omega[j,i]` for
all `i`, `j`, and every diagonal entry is `0`. -/
theorem claim_C5_intersection_skew {d : ℕ} (posP posN : Fin d → ℕ)
    (M : IntMatrix d) (h : intersection_matrix posP posN = Except.ok M) :
    (∀ i j, M i j = - M j i) ∧ (∀ i, M i i = 0) := by
  have hskew : IsSkew M :=
    omegaFold_skew posP posN (omegaPairs d) omegaPairs_ne
      (fun _ _ => 0) (fun a b => by simp) M h
  refine ⟨hskew, fun i => ?_⟩
  have := hskew i i
  omega

/-- Extract the payload of a successful computation. -/
def exceptGet {ε α : Type*} (dflt : α) : Except ε α → α
  | Except.ok a => a
  | Except.error _ => dflt

theorem claim_C5_intersection_skew_witness :
    (∀ i j, exceptGet 0 (intersection_matrix (d := 2) ![0, 1] ![2, 3]) i j =
      - exceptGet 0 (intersection_matrix (d := 2) ![0, 1] ![2, 3]) j i) ∧
    (∀ i, exceptGet 0 (intersection_matrix (d := 2) ![0, 1] ![2, 3]) i i = 0) :=
  claim_C5_intersection_skew ![0, 1] ![2, 3]
    (exceptGet 0 (intersection_matrix (d := 2) ![0, 1] ![2, 3])) rfl

/-!
## `GL2ROrbitClosure.decomposition`
Embedding of lines 767-773.  The external libflatsurf calls
`makeFlowDecomposition` and `decomposeFlowDecomposition(_, int(limit))`
are abstract parameters; `Decomposition(self, decomposition, u)` wraps
the (possibly refined) raw decomposition with the direction. -/

/-- The `Decomposition` wrapper object: raw libflatsurf decomposition
plus the direction `u`. -/
structure DecompResult (V R : Type*) where
  raw : R
  direction : V

/-- `GL2ROrbitClosure.decomposition(v, limit=-1)`. -/
def decomposition {V R : Type*} (makeFlow : V → R)
    (decomposeFlow : R → ℤ → R) (v : V) (limit : ℤ) : DecompResult V R :=
  let dec := makeFlow v
  let dec := if limit ≠ 0 then decomposeFlow dec limit else dec
  { raw := dec, direction := v }

/-- C10.  `decomposition(v, limit)` treats `limit == 0` specially: no
refinement step is performed and the returned object wraps the unrefined
flow decomposition; for every nonzero limit (including the default `-1`)
the refinement `decomposeFlowDecomposition` is invoked with that
limit. -/
theorem claim_C10_decomposition_limit {V R : Type*} (makeFlow : V → R)
    (decomposeFlow : R → ℤ → R) (v : V) :
    (decomposition makeFlow decomposeFlow v 0 =
      { raw := makeFlow v, direction := v }) ∧
    (∀ limit : ℤ, limit ≠ 0 →
      decomposition makeFlow decomposeFlow v limit =
        { raw := decomposeFlow (makeFlow v) limit, direction := v }) := by
  constructor
  · simp [decomposition]
  · intro limit hl
    simp [decomposition, hl]

theorem claim_C10_decomposition_limit_witness :
    (decomposition (fun n : ℕ => n + 1) (fun r l => r + l.natAbs) 5 0 =
      { raw := 6, direction := 5 }) ∧
    (decomposition (fun n : ℕ => n + 1) (fun r l => r + l.natAbs) 5 (-1) =
      { raw := 7, direction := 5 }) := by
  have h := claim_C10_decomposition_limit (fun n : ℕ => n + 1)
    (fun r l => r + l.natAbs) 5
  exact ⟨h.1, h.2 (-1) (by decide)⟩

/-!
## Breadth-first direction enumeration
`decompositions_breadth_first` (lines 795-814) evaluates the expression
`flatsurf.Bound(i, 0)` on its first pull.  The module binds, through
its imported names and top-level definitions, exactly the global names
in `moduleBindings`; `flatsurf` is not among them (the sibling generator
`decompositions_depth_first` spells it `pyflatsurf.flatsurf.Bound`), so
Python raises `NameError: name 'flatsurf' is not defined` as soon as the
generator body runs.  The embedding models the first pull of the
generator up to this first global-name lookup. -/

/-- The global names bound at module level in gl2r_orbit_closure.py
(imports at lines 36-50 and the two class statements). -/
def moduleBindings : List String :=
  ["cppyy", "RealEmbeddedNumberField", "pyflatsurf", "Vertex", "VectorSpace",
   "FreeModule", "matrix", "identity_matrix", "ZZ", "QQ", "Unknown", "vector",
   "subfield_from_elements", "is_between", "projectivization",
   "TranslationSurface", "to_pyflatsurf", "Decomposition", "GL2ROrbitClosure"]

/-- Outcome of pulling one item from a generator. -/
inductive PullResult
  | yielded
  | exhausted
  | nameError (name : String)
deriving DecidableEq

/-- Python global-name lookup in the module's namespace. -/
def resolveGlobal (n : String) : Option Unit :=
  if n ∈ moduleBindings then some () else none

/-- First pull of `decompositions_breadth_first(bound, ...)`: the outer
loop `for i in range(bound + 1)` is empty for `bound < 0`; otherwise the
first statement executed is
`for connection in self._surface.saddle_connections(flatsurf.Bound(i, 0))`,
whose evaluation begins with the lookup of the global `flatsurf`. -/
def decompositions_breadth_first_first_pull (bound : ℤ) : PullResult :=
  if bound + 1 ≤ 0 then PullResult.exhausted
  else
    match resolveGlobal "flatsurf" with
    | none => PullResult.nameError "flatsurf"
    | some _ => PullResult.yielded

/-- C2 (code bug).  For every non-negative squared-length bound, pulling
the breadth-first decomposition generator does not yield a flow
decomposition: it raises `NameError` for the unbound global `flatsurf`
on the first pull. -/
theorem claim_C2_breadth_first_name_error (n : ℕ) :
    decompositions_breadth_first_first_pull n = PullResult.nameError "flatsurf" := by
  unfold decompositions_breadth_first_first_pull
  rw [if_neg (by omega)]
  rfl


/-!
## SpanningTreeBuilder
Embedding of `GL2ROrbitClosure._spanning_tree` (gl2r_orbit_closure.py,
lines 608-657), `_half_edge_to_face`, `_faces` and `boundaries`
(lines 722-765).  Half-edges carry the libflatsurf index convention used
by the code: the two half-edges of edge `k` have indices `2k` (positive)
and `2k+1` (negative), `h.edge().index() = h.index() / 2`, the
orientation sign is `-1 if index % 2 else 1`, and `-h` flips the parity.
A surface is the `nextInFace` permutation, with `nextInFace^3 = id`
(triangulated). -/

/-- The opposite half-edge `-h` (parity flip of the index). -/
def negH {E : ℕ} (h : Fin (2 * E)) : Fin (2 * E) :=
  ⟨if h.val % 2 = 0 then h.val + 1 else h.val - 1, by
    rcases h with ⟨v, hv⟩
    dsimp only
    split_ifs <;> omega⟩

/-- `h.edge().index()`. -/
def edgeOf {E : ℕ} (h : Fin (2 * E)) : Fin E :=
  ⟨h.val / 2, by rcases h with ⟨v, hv⟩; omega⟩

/-- The orientation sign `-1 if h.index() % 2 else 1`. -/
def signH {E : ℕ} (h : Fin (2 * E)) : ℤ :=
  if h.val % 2 = 1 then -1 else 1

/-- A triangulated surface: the `nextInFace` navigation, with every
face closing into a 3-cycle (the `assert nextInFace(f3) == f1` of the
source). -/
structure Surf (E : ℕ) where
  nif : Fin (2 * E) → Fin (2 * E)
  nif3 : ∀ h, nif (nif (nif h)) = h

/-- Validity: the three edges of a face are distinct (no face uses both
half-edges of one edge); equivalent to consecutive face half-edges
having distinct edges, given the 3-cycle property. -/
def FaceEdgesDistinct {E : ℕ} (S : Surf E) : Prop :=
  ∀ h, edgeOf (S.nif h) ≠ edgeOf h

theorem negH_negH {E : ℕ} (h : Fin (2 * E)) : negH (negH h) = h := by
  rcases h with ⟨v, hv⟩
  unfold negH
  apply Fin.ext
  dsimp only
  split_ifs <;> omega

theorem negH_ne {E : ℕ} (h : Fin (2 * E)) : negH h ≠ h := by
  rcases h with ⟨v, hv⟩
  unfold negH
  intro hc
  rw [Fin.ext_iff] at hc
  dsimp only at hc
  split_ifs at hc <;> omega

theorem edgeOf_negH {E : ℕ} (h : Fin (2 * E)) : edgeOf (negH h) = edgeOf h := by
  rcases h with ⟨v, hv⟩
  unfold negH edgeOf
  apply Fin.ext
  dsimp only
  split_ifs <;> omega

theorem edgeOf_eq_iff {E : ℕ} (h g : Fin (2 * E)) :
    edgeOf h = edgeOf g ↔ h = g ∨ h = negH g := by
  rcases h with ⟨v, hv⟩
  rcases g with ⟨w, hw⟩
  unfold edgeOf negH
  rw [Fin.ext_iff, Fin.ext_iff, Fin.ext_iff]
  dsimp only
  constructor
  · intro hvw
    split_ifs <;> omega
  · intro hvw
    rcases hvw with hvw | hvw
    · omega
    · split_ifs at hvw <;> omega

/-- `_half_edge_to_face`: the minimum-index half-edge of the face
3-cycle, used as the canonical face representative. -/
def faceRep {E : ℕ} (S : Surf E) (h : Fin (2 * E)) : Fin (2 * E) :=
  min h (min (S.nif h) (S.nif (S.nif h)))

theorem faceRep_nif {E : ℕ} (S : Surf E) (h : Fin (2 * E)) :
    faceRep S (S.nif h) = faceRep S h := by
  unfold faceRep
  rw [S.nif3 h]
  rcases le_total h (S.nif h) with h1 | h1 <;>
    rcases le_total h (S.nif (S.nif h)) with h2 | h2 <;>
      rcases le_total (S.nif h) (S.nif (S.nif h)) with h3 | h3 <;>
        simp [min_def, h1, h2, h3] <;> omega

/-- Membership in the face 3-cycle of `h`. -/
def InFace {E : ℕ} (S : Surf E) (h g : Fin (2 * E)) : Prop :=
  g = h ∨ g = S.nif h ∨ g = S.nif (S.nif h)

theorem faceRep_mem {E : ℕ} (S : Surf E) (h : Fin (2 * E)) :
    InFace S h (faceRep S h) := by
  unfold faceRep InFace
  rcases le_total h (min (S.nif h) (S.nif (S.nif h))) with h1 | h1 <;>
    rcases le_total (S.nif h) (S.nif (S.nif h)) with h2 | h2 <;>
      simp [min_def, h1, h2] <;> omega

theorem inFace_symm {E : ℕ} (S : Surf E) {h g : Fin (2 * E)}
    (hg : InFace S h g) : InFace S g h := by
  rcases hg with rfl | rfl | rfl
  · exact Or.inl rfl
  · exact Or.inr (Or.inr (by rw [S.nif3]))
  · exact Or.inr (Or.inl (by rw [S.nif3]))

theorem inFace_trans {E : ℕ} (S : Surf E) {h g k : Fin (2 * E)}
    (hg : InFace S h g) (hk : InFace S g k) : InFace S h k := by
  rcases hg with rfl | rfl | rfl <;> rcases hk with rfl | rfl | rfl <;>
    unfold InFace <;> simp [S.nif3]

theorem faceRep_eq_of_inFace {E : ℕ} (S : Surf E) {h g : Fin (2 * E)}
    (hg : InFace S h g) : faceRep S g = faceRep S h := by
  rcases hg with rfl | rfl | rfl
  · rfl
  · exact faceRep_nif S h
  · rw [faceRep_nif S (S.nif h), faceRep_nif S h]

theorem inFace_of_faceRep_eq {E : ℕ} (S : Surf E) {h g : Fin (2 * E)}
    (heq : faceRep S h = faceRep S g) : InFace S h g := by
  have h1 : InFace S h (faceRep S h) := faceRep_mem S h
  have h2 : InFace S g (faceRep S g) := faceRep_mem S g
  rw [← heq] at h2
  exact inFace_trans S h1 (inFace_symm S h2)

theorem faceRep_idem {E : ℕ} (S : Surf E) (h : Fin (2 * E)) :
    faceRep S (faceRep S h) = faceRep S h :=
  faceRep_eq_of_inFace S (faceRep_mem S h)


/-- State of the spanning-tree DFS: the visited faces (`t.keys()`), the
stack `todo`, and the tree half-edges in discovery order (`edges`). -/
structure DfsState (E : ℕ) where
  visited : Finset (Fin (2 * E))
  todo : List (Fin (2 * E))
  acc : List (Fin (2 * E))

/-- One discovery check `f1 = -f; g = face(f1); if g not in t: ...` of
the traversal's inner loop body. -/
def visitStep {E : ℕ} (S : Surf E) (st : DfsState E) (f : Fin (2 * E)) :
    DfsState E :=
  let f1 := negH f
  let g := faceRep S f1
  if g ∈ st.visited then st
  else ⟨insert g st.visited, st.todo ++ [g], st.acc ++ [f1]⟩

/-- The inner `for _ in range(3)` loop, unrolled. -/
def processFace {E : ℕ} (S : Surf E) (st : DfsState E) (f : Fin (2 * E)) :
    DfsState E :=
  visitStep S (visitStep S (visitStep S st f) (S.nif f)) (S.nif (S.nif f))

/-- The `while todo:` loop.  `todo.pop()` removes the last element.  The
fuel is always instantiated with `2 * E + 1`: every iteration pops one
element and each face is pushed at most once, so the loop always
terminates within that bound. -/
def dfsLoop {E : ℕ} (S : Surf E) : ℕ → DfsState E → DfsState E
  | 0, st => st
  | fuel + 1, st =>
    match st.todo.getLast? with
    | none => st
    | some f => dfsLoop S fuel (processFace S ⟨st.visited, st.todo.dropLast, st.acc⟩ f)

/-- The traversal part of `_spanning_tree` with the default root
(the face of half-edge 0). -/
def spanning_tree_dfs {E : ℕ} (S : Surf E) (h0 : 0 < E) : DfsState E :=
  let root := faceRep S ⟨0, by omega⟩
  dfsLoop S (2 * E + 1) ⟨{root}, [root], []⟩

/-- The invariants of the traversal. -/
structure DfsInv {E : ℕ} (S : Surf E) (root : Fin (2 * E)) (st : DfsState E) :
    Prop where
  root_vis : root ∈ st.visited
  todo_vis : ∀ g ∈ st.todo, g ∈ st.visited
  vis_rep : ∀ g ∈ st.visited, faceRep S g = g
  acc_vis : ∀ e ∈ st.acc, faceRep S e ∈ st.visited
  acc_ne_root : ∀ e ∈ st.acc, faceRep S e ≠ root
  acc_out_vis : ∀ e ∈ st.acc, faceRep S (negH e) ∈ st.visited
  acc_faces_nodup : (st.acc.map (faceRep S)).Nodup
  acc_cover : ∀ g ∈ st.visited, g ≠ root → ∃ e ∈ st.acc, faceRep S e = g
  order : ∀ k l, (hk : k < st.acc.length) → (hl : l < st.acc.length) →
    faceRep S (negH st.acc[l]) = faceRep S st.acc[k] → k < l

theorem visitStep_visited_mono {E : ℕ} (S : Surf E) (st : DfsState E)
    (f : Fin (2 * E)) : st.visited ⊆ (visitStep S st f).visited := by
  simp only [visitStep]
  split_ifs with h
  · exact Finset.Subset.refl _
  · exact Finset.subset_insert _ _

theorem visitStep_inv {E : ℕ} (S : Surf E) (root : Fin (2 * E))
    (st : DfsState E) (f : Fin (2 * E)) (hf : faceRep S f ∈ st.visited)
    (hinv : DfsInv S root st) : DfsInv S root (visitStep S st f) := by
  simp only [visitStep]
  split_ifs with hmem
  · exact hinv
  · constructor
    · exact Finset.mem_insert_of_mem hinv.root_vis
    · intro g hg
      rcases List.mem_append.mp hg with hg | hg
      · exact Finset.mem_insert_of_mem (hinv.todo_vis g hg)
      · rw [List.mem_singleton] at hg
        rw [hg]
        exact Finset.mem_insert_self _ _
    · intro g hg
      rcases Finset.mem_insert.mp hg with rfl | hg
      · exact faceRep_idem S (negH f)
      · exact hinv.vis_rep g hg
    · intro e he
      rcases List.mem_append.mp he with he | he
      · exact Finset.mem_insert_of_mem (hinv.acc_vis e he)
      · rw [List.mem_singleton] at he
        rw [he]
        exact Finset.mem_insert_self _ _
    · intro e he
      rcases List.mem_append.mp he with he | he
      · exact hinv.acc_ne_root e he
      · rw [List.mem_singleton] at he
        rw [he]
        intro hc
        exact hmem (hc ▸ hinv.root_vis)
    · intro e he
      rcases List.mem_append.mp he with he | he
      · exact Finset.mem_insert_of_mem (hinv.acc_out_vis e he)
      · rw [List.mem_singleton] at he
        rw [he, negH_negH]
        exact Finset.mem_insert_of_mem hf
    · rw [List.map_append, List.nodup_append]
      refine ⟨hinv.acc_faces_nodup, List.nodup_singleton _, ?_⟩
      intro x hx hx2
      simp only [List.map_cons, List.map_nil, List.mem_singleton] at hx2
      rw [hx2] at hx
      obtain ⟨e, he, heq⟩ := List.mem_map.mp hx
      exact hmem (heq ▸ hinv.acc_vis e he)
    · intro g hg hgroot
      rcases Finset.mem_insert.mp hg with rfl | hg
      · exact ⟨negH f, List.mem_append.mpr (Or.inr (List.mem_singleton_self _)), rfl⟩
      · obtain ⟨e, he, heq⟩ := hinv.acc_cover g hg hgroot
        exact ⟨e, List.mem_append.mpr (Or.inl he), heq⟩
    · intro k l hk hl hface
      simp only [List.length_append, List.length_singleton] at hk hl
      by_cases hlo : l < st.acc.length
      · have hgl : (st.acc ++ [negH f])[l] = st.acc[l] := List.getElem_append_left hlo
        by_cases hko : k < st.acc.length
        · have hgk : (st.acc ++ [negH f])[k] = st.acc[k] := List.getElem_append_left hko
          rw [hgl, hgk] at hface
          exact hinv.order k l hko hlo hface
        · have hkeq : k = st.acc.length := by omega
          have hgk : (st.acc ++ [negH f])[k] = negH f := by
            rw [List.getElem_append_right (by omega)]
            simp [hkeq]
          rw [hgl, hgk] at hface
          exfalso
          exact hmem (hface ▸ hinv.acc_out_vis _ (List.getElem_mem hlo))
      · have hleq : l = st.acc.length := by omega
        by_cases hko : k < st.acc.length
        · omega
        · have hkeq : k = st.acc.length := by omega
          have hgk : (st.acc ++ [negH f])[k] = negH f := by
            rw [List.getElem_append_right (by omega)]
            simp [hkeq]
          have hgl : (st.acc ++ [negH f])[l] = negH f := by
            rw [List.getElem_append_right (by omega)]
            simp [hleq]
          rw [hgk, hgl, negH_negH] at hface
          exfalso
          exact hmem (hface ▸ hf)

theorem processFace_inv {E : ℕ} (S : Surf E) (root : Fin (2 * E))
    (st : DfsState E) (f : Fin (2 * E)) (hf : faceRep S f ∈ st.visited)
    (hinv : DfsInv S root st) : DfsInv S root (processFace S st f) := by
  unfold processFace
  have h1 := visitStep_inv S root st f hf hinv
  have hf1 : faceRep S (S.nif f) ∈ (visitStep S st f).visited := by
    rw [faceRep_nif]
    exact visitStep_visited_mono S st f hf
  have h2 := visitStep_inv S root _ (S.nif f) hf1 h1
  have hf2 : faceRep S (S.nif (S.nif f)) ∈
      (visitStep S (visitStep S st f) (S.nif f)).visited := by
    rw [faceRep_nif, faceRep_nif]
    exact visitStep_visited_mono S _ (S.nif f) (visitStep_visited_mono S st f hf)
  exact visitStep_inv S root _ (S.nif (S.nif f)) hf2 h2

theorem dfsLoop_inv {E : ℕ} (S : Surf E) (root : Fin (2 * E)) :
    ∀ (fuel : ℕ) (st : DfsState E), DfsInv S root st →
    DfsInv S root (dfsLoop S fuel st) := by
  intro fuel
  induction fuel with
  | zero => intro st hinv; exact hinv
  | succ fuel ih =>
      intro st hinv
      unfold dfsLoop
      cases hl : st.todo.getLast? with
      | none => exact hinv
      | some f =>
          apply ih
          have hfpop : f ∈ st.todo := by
            have := List.dropLast_append_getLast? f hl
            rw [← this]
            exact List.mem_append.mpr (Or.inr (List.mem_singleton_self _))
          have hfvis : f ∈ st.visited := hinv.todo_vis f hfpop
          have hfrep : faceRep S f = f := hinv.vis_rep f hfvis
          apply processFace_inv S root _ f (by rw [hfrep]; exact hfvis)
          constructor
          · exact hinv.root_vis
          · intro g hg
            exact hinv.todo_vis g (List.mem_of_mem_dropLast hg)
          · exact hinv.vis_rep
          · exact hinv.acc_vis
          · exact hinv.acc_ne_root
          · exact hinv.acc_out_vis
          · exact hinv.acc_faces_nodup
          · exact hinv.acc_cover
          · exact hinv.order

theorem spanning_tree_dfs_inv {E : ℕ} (S : Surf E) (h0 : 0 < E) :
    DfsInv S (faceRep S ⟨0, by omega⟩) (spanning_tree_dfs S h0) := by
  unfold spanning_tree_dfs
  apply dfsLoop_inv
  constructor
  · exact Finset.mem_singleton_self _
  · intro g hg
    rw [List.mem_singleton] at hg
    rw [hg]
    exact Finset.mem_singleton_self _
  · intro g hg
    rw [Finset.mem_singleton] at hg
    rw [hg]
    exact faceRep_idem S _
  · intro e he; exact absurd he (List.not_mem_nil e)
  · intro e he; exact absurd he (List.not_mem_nil e)
  · intro e he; exact absurd he (List.not_mem_nil e)
  · exact List.nodup_nil
  · intro g hg hgroot
    rw [Finset.mem_singleton] at hg
    exact absurd hg hgroot
  · intro k l hk hl
    simp at hk


/-- Replace row `i` of a row-major integer matrix. -/
def rowUpd {E : ℕ} (M : Fin E → Fin E → ℤ) (i : Fin E) (r : Fin E → ℤ) :
    Fin E → Fin E → ℤ :=
  fun a => if a = i then r else M a

/-- The `n x n` identity matrix `identity_matrix(ZZ, n)`. -/
def idMat (E : ℕ) : Fin E → Fin E → ℤ :=
  fun a b => if a = b then 1 else 0

/-- One step of the Gauss reduction of `_spanning_tree`: eliminate the
row of the tree half-edge `f1` using its face relation
(`proj[i1] = -s1*(s2*proj[i2] + s3*proj[i3])`). -/
def gaussStep {E : ℕ} (S : Surf E) (M : Fin E → Fin E → ℤ) (f1 : Fin (2 * E)) :
    Fin E → Fin E → ℤ :=
  rowUpd M (edgeOf f1)
    (fun c => -(signH f1) *
      (signH (S.nif f1) * M (edgeOf (S.nif f1)) c +
       signH (S.nif (S.nif f1)) * M (edgeOf (S.nif (S.nif f1))) c))

/-- The Gauss reduction: process the tree half-edges in reverse
discovery order (`edges.reverse()`). -/
def gaussPass {E : ℕ} (S : Surf E) (acc : List (Fin (2 * E))) :
    Fin E → Fin E → ℤ :=
  acc.reverse.foldl (gaussStep S) (idMat E)

/-- `_spanning_tree`: the projection matrix (rows indexed by edges). -/
def spanning_tree_proj {E : ℕ} (S : Surf E) (h0 : 0 < E) :
    Fin E → Fin E → ℤ :=
  gaussPass S (spanning_tree_dfs S h0).acc

/-- The signed sum of the rows of the three edges of the face of `h`
(the face relation applied to the rows of `M`), evaluated at column
`c`. -/
def faceRel {E : ℕ} (S : Surf E) (M : Fin E → Fin E → ℤ) (h : Fin (2 * E))
    (c : Fin E) : ℤ :=
  signH h * M (edgeOf h) c + signH (S.nif h) * M (edgeOf (S.nif h)) c +
    signH (S.nif (S.nif h)) * M (edgeOf (S.nif (S.nif h))) c

theorem faceRel_nif {E : ℕ} (S : Surf E) (M : Fin E → Fin E → ℤ)
    (h : Fin (2 * E)) (c : Fin E) :
    faceRel S M (S.nif h) c = faceRel S M h c := by
  unfold faceRel
  rw [S.nif3 h]
  ring

theorem faceRel_of_inFace {E : ℕ} (S : Surf E) (M : Fin E → Fin E → ℤ)
    {h g : Fin (2 * E)} (hg : InFace S h g) (c : Fin E) :
    faceRel S M g c = faceRel S M h c := by
  rcases hg with rfl | rfl | rfl
  · rfl
  · exact faceRel_nif S M h c
  · rw [faceRel_nif S M (S.nif h) c, faceRel_nif S M h c]

theorem signH_mul_self {E : ℕ} (h : Fin (2 * E)) : signH h * signH h = 1 := by
  unfold signH
  split_ifs <;> ring

theorem signH_negH {E : ℕ} (h : Fin (2 * E)) : signH (negH h) = - signH h := by
  rcases h with ⟨v, hv⟩
  unfold signH negH
  dsimp only
  split_ifs <;> omega

/-- Distinctness of the three edges of a face, from
`FaceEdgesDistinct` and the 3-cycle property. -/
theorem face_edges_distinct {E : ℕ} {S : Surf E} (hdist : FaceEdgesDistinct S)
    (h : Fin (2 * E)) :
    edgeOf (S.nif h) ≠ edgeOf h ∧ edgeOf (S.nif (S.nif h)) ≠ edgeOf h ∧
      edgeOf (S.nif (S.nif h)) ≠ edgeOf (S.nif h) := by
  refine ⟨hdist h, ?_, hdist (S.nif h)⟩
  intro hc
  have := hdist (S.nif (S.nif h))
  rw [S.nif3 h] at this
  exact this hc.symm

theorem nif_ne_self {E : ℕ} {S : Surf E} (hdist : FaceEdgesDistinct S)
    (h : Fin (2 * E)) : S.nif h ≠ h :=
  fun hc => hdist h (by rw [hc])

theorem nif_nif_ne_self {E : ℕ} {S : Surf E} (hdist : FaceEdgesDistinct S)
    (h : Fin (2 * E)) : S.nif (S.nif h) ≠ h :=
  fun hc => (face_edges_distinct hdist h).2.1 (by rw [hc])


/-- Distinct positions in the tree-edge list carry distinct faces. -/
theorem dfs_face_inj {E : ℕ} {S : Surf E} {root : Fin (2 * E)}
    {st : DfsState E} (hinv : DfsInv S root st) :
    ∀ k l, (hk : k < st.acc.length) → (hl : l < st.acc.length) →
    faceRep S st.acc[k] = faceRep S st.acc[l] → k = l := by
  intro k l hk hl heq
  have hnd := hinv.acc_faces_nodup
  have hk' : k < (st.acc.map (faceRep S)).length := by simpa using hk
  have hl' : l < (st.acc.map (faceRep S)).length := by simpa using hl
  have : (st.acc.map (faceRep S))[k] = (st.acc.map (faceRep S))[l] := by
    rw [List.getElem_map, List.getElem_map]
    exact heq
  exact (List.Nodup.getElem_inj_iff hnd).mp this

/-- Distinct positions in the tree-edge list carry distinct edges. -/
theorem dfs_edge_inj {E : ℕ} {S : Surf E} {root : Fin (2 * E)}
    {st : DfsState E} (hinv : DfsInv S root st) :
    ∀ k l, (hk : k < st.acc.length) → (hl : l < st.acc.length) →
    edgeOf st.acc[k] = edgeOf st.acc[l] → k = l := by
  intro k l hk hl heq
  rcases (edgeOf_eq_iff _ _).mp heq with heq2 | heq2
  · exact dfs_face_inj hinv k l hk hl (by rw [heq2])
  · have h1 : faceRep S (negH st.acc[l]) = faceRep S st.acc[k] := by
      rw [← heq2]
    have h2 : faceRep S (negH st.acc[k]) = faceRep S st.acc[l] := by
      rw [show negH st.acc[k] = st.acc[l] by rw [heq2, negH_negH]]
    have := hinv.order k l hk hl h1
    have := hinv.order l k hl hk h2
    omega

/-- The ordering fact the Gauss reduction relies on: any other tree
half-edge whose edge lies on the face of `acc[k]` occurs strictly
later in the discovery list (hence is processed strictly earlier in the
reversed Gauss pass). -/
theorem dfs_tree_order {E : ℕ} {S : Surf E} {root : Fin (2 * E)}
    {st : DfsState E} (hinv : DfsInv S root st) :
    ∀ k, (hk : k < st.acc.length) → ∀ h, InFace S st.acc[k] h →
    h ≠ st.acc[k] → ∀ l, (hl : l < st.acc.length) →
    edgeOf st.acc[l] = edgeOf h → k < l := by
  intro k hk h hface hne l hl heq
  rcases (edgeOf_eq_iff _ _).mp heq with heq2 | heq2
  · exfalso
    have : faceRep S st.acc[l] = faceRep S st.acc[k] := by
      rw [heq2]
      exact faceRep_eq_of_inFace S hface
    have hlk := dfs_face_inj hinv l k hl hk this
    subst hlk
    exact hne heq2.symm
  · have : faceRep S (negH st.acc[l]) = faceRep S st.acc[k] := by
      rw [heq2, negH_negH]
      exact faceRep_eq_of_inFace S hface
    exact hinv.order k l hk hl this

/-- The matrix after `p` steps of the reversed Gauss pass. -/
def gaussAfter {E : ℕ} (S : Surf E) (acc : List (Fin (2 * E))) (p : ℕ) :
    Fin E → Fin E → ℤ :=
  (acc.reverse.take p).foldl (gaussStep S) (idMat E)

theorem gaussAfter_succ {E : ℕ} (S : Surf E) (acc : List (Fin (2 * E)))
    (p : ℕ) (hp : p < acc.length) :
    gaussAfter S acc (p + 1) =
      gaussStep S (gaussAfter S acc p) acc[acc.length - 1 - p] := by
  unfold gaussAfter
  have hp' : p < acc.reverse.length := by simpa using hp
  rw [List.take_succ, List.getElem?_eq_getElem hp']
  rw [List.getElem_reverse]
  simp only [Option.toList_some]
  rw [List.foldl_append]
  rfl

theorem gaussAfter_full {E : ℕ} (S : Surf E) (acc : List (Fin (2 * E))) :
    gaussAfter S acc acc.length = gaussPass S acc := by
  unfold gaussAfter gaussPass
  rw [List.take_of_length_le (by simp)]

/-- The four invariants of the Gauss reduction after `p` steps of the
reversed pass: untouched rows are still identity rows, processed faces
have their relations annihilated, processed tree-edge columns are zero,
and the columns of still-unprocessed tree edges are still unit
columns. -/
theorem gauss_invariant {E : ℕ} {S : Surf E} (hdist : FaceEdgesDistinct S)
    (acc : List (Fin (2 * E)))
    (hedge : ∀ k l, (hk : k < acc.length) → (hl : l < acc.length) →
      edgeOf acc[k] = edgeOf acc[l] → k = l)
    (horder : ∀ k, (hk : k < acc.length) → ∀ h, InFace S acc[k] h →
      h ≠ acc[k] → ∀ l, (hl : l < acc.length) → edgeOf acc[l] = edgeOf h → k < l) :
    ∀ p, p ≤ acc.length →
    (∀ i : Fin E, (∀ k, (hk : k < acc.length) → acc.length - p ≤ k →
        edgeOf acc[k] ≠ i) → ∀ c, gaussAfter S acc p i c = idMat E i c) ∧
    (∀ k, (hk : k < acc.length) → acc.length - p ≤ k →
        ∀ c, faceRel S (gaussAfter S acc p) acc[k] c = 0) ∧
    (∀ k, (hk : k < acc.length) → acc.length - p ≤ k →
        ∀ j, gaussAfter S acc p j (edgeOf acc[k]) = 0) ∧
    (∀ k, (hk : k < acc.length) → k < acc.length - p →
        ∀ j, j ≠ edgeOf acc[k] → gaussAfter S acc p j (edgeOf acc[k]) = 0) := by
  intro p
  induction p with
  | zero =>
      intro _
      refine ⟨fun i _ c => rfl, fun k hk hp => absurd hp (by omega),
        fun k hk hp => absurd hp (by omega), fun k hk _ j hj => ?_⟩
      show idMat E j (edgeOf acc[k]) = 0
      unfold idMat
      rw [if_neg hj]
  | succ p ih =>
      intro hp1
      have hplt : p < acc.length := by omega
      obtain ⟨U1, U2, U3, U6⟩ := ih (by omega)
      have hqlt : acc.length - 1 - p < acc.length := by omega
      have hstep : gaussAfter S acc (p + 1) =
          gaussStep S (gaussAfter S acc p) acc[acc.length - 1 - p] :=
        gaussAfter_succ S acc p hplt
      obtain ⟨hd21, hd31, hd32⟩ := face_edges_distinct hdist acc[acc.length - 1 - p]
      have hproc2 : ∀ k, (hk : k < acc.length) →
          edgeOf acc[k] = edgeOf (S.nif acc[acc.length - 1 - p]) →
          acc.length - 1 - p < k :=
        fun k hk he =>
          horder _ hqlt _ (Or.inr (Or.inl rfl)) (nif_ne_self hdist _) k hk he
      have hproc3 : ∀ k, (hk : k < acc.length) →
          edgeOf acc[k] = edgeOf (S.nif (S.nif acc[acc.length - 1 - p])) →
          acc.length - 1 - p < k :=
        fun k hk he =>
          horder _ hqlt _ (Or.inr (Or.inr rfl)) (nif_nif_ne_self hdist _) k hk he
      have hrow_other : ∀ i : Fin E, i ≠ edgeOf acc[acc.length - 1 - p] →
          ∀ c, gaussAfter S acc (p + 1) i c = gaussAfter S acc p i c := by
        intro i hi c
        rw [hstep]
        simp only [gaussStep, rowUpd]
        rw [if_neg hi]
      have hrow_new : ∀ c,
          gaussAfter S acc (p + 1) (edgeOf acc[acc.length - 1 - p]) c =
          -(signH acc[acc.length - 1 - p]) *
            (signH (S.nif acc[acc.length - 1 - p]) *
              gaussAfter S acc p (edgeOf (S.nif acc[acc.length - 1 - p])) c +
             signH (S.nif (S.nif acc[acc.length - 1 - p])) *
              gaussAfter S acc p
                (edgeOf (S.nif (S.nif acc[acc.length - 1 - p]))) c) := by
        intro c
        rw [hstep]
        simp only [gaussStep, rowUpd]
        simp
      have hkey : ∀ Y : ℤ, signH acc[acc.length - 1 - p] *
          (-(signH acc[acc.length - 1 - p]) * Y) = -Y := by
        intro Y
        calc signH acc[acc.length - 1 - p] *
              (-(signH acc[acc.length - 1 - p]) * Y)
            = -(signH acc[acc.length - 1 - p] * signH acc[acc.length - 1 - p]) * Y := by
              ring
          _ = -Y := by rw [signH_mul_self]; ring
      refine ⟨?_, ?_, ?_, ?_⟩
      · -- U1
        intro i hi c
        have hi1 : edgeOf acc[acc.length - 1 - p] ≠ i := hi _ hqlt (by omega)
        rw [hrow_other i (Ne.symm hi1) c]
        exact U1 i (fun k hk hkp => hi k hk (by omega)) c
      · -- U2
        intro k hk hkp c
        by_cases hkq : k = acc.length - 1 - p
        · subst hkq
          unfold faceRel
          rw [hrow_new c, hrow_other _ hd21 c, hrow_other _ hd31 c, hkey]
          ring
        · have hkp' : acc.length - p ≤ k := by omega
          unfold faceRel
          have hne1 : edgeOf acc[k] ≠ edgeOf acc[acc.length - 1 - p] :=
            fun hce => hkq (hedge k _ hk hqlt hce)
          have hneA : edgeOf (S.nif acc[k]) ≠ edgeOf acc[acc.length - 1 - p] := by
            intro hce
            have := horder k hk (S.nif acc[k]) (Or.inr (Or.inl rfl))
              (nif_ne_self hdist _) (acc.length - 1 - p) hqlt hce.symm
            omega
          have hneB : edgeOf (S.nif (S.nif acc[k])) ≠
              edgeOf acc[acc.length - 1 - p] := by
            intro hce
            have := horder k hk (S.nif (S.nif acc[k])) (Or.inr (Or.inr rfl))
              (nif_nif_ne_self hdist _) (acc.length - 1 - p) hqlt hce.symm
            omega
          rw [hrow_other _ hne1, hrow_other _ hneA, hrow_other _ hneB]
          exact U2 k hk hkp' c
      · -- U3
        intro k hk hkp j
        by_cases hkq : k = acc.length - 1 - p
        · subst hkq
          by_cases hj : j = edgeOf acc[acc.length - 1 - p]
          · rw [hj, hrow_new]
            have h2 := U6 _ hqlt (by omega) (edgeOf (S.nif acc[acc.length - 1 - p])) hd21
            have h3 := U6 _ hqlt (by omega)
              (edgeOf (S.nif (S.nif acc[acc.length - 1 - p]))) hd31
            rw [h2, h3]
            ring
          · rw [hrow_other j hj]
            exact U6 _ hqlt (by omega) j hj
        · have hkp' : acc.length - p ≤ k := by omega
          by_cases hj : j = edgeOf acc[acc.length - 1 - p]
          · rw [hj, hrow_new]
            have h2 := U3 k hk hkp' (edgeOf (S.nif acc[acc.length - 1 - p]))
            have h3 := U3 k hk hkp' (edgeOf (S.nif (S.nif acc[acc.length - 1 - p])))
            rw [h2, h3]
            ring
          · rw [hrow_other j hj]
            exact U3 k hk hkp' j
      · -- U6
        intro k hk hkp j hj
        by_cases hjq : j = edgeOf acc[acc.length - 1 - p]
        · rw [hjq, hrow_new]
          have hne2 : edgeOf (S.nif acc[acc.length - 1 - p]) ≠ edgeOf acc[k] := by
            intro hceq
            have := hproc2 k hk hceq.symm
            omega
          have hne3 : edgeOf (S.nif (S.nif acc[acc.length - 1 - p])) ≠
              edgeOf acc[k] := by
            intro hceq
            have := hproc3 k hk hceq.symm
            omega
          have h2 := U6 k hk (by omega) (edgeOf (S.nif acc[acc.length - 1 - p])) hne2
          have h3 := U6 k hk (by omega)
            (edgeOf (S.nif (S.nif acc[acc.length - 1 - p]))) hne3
          rw [h2, h3]
          ring
        · rw [hrow_other j hjq]
          exact U6 k hk (by omega) j hj

/-- Opposite-half-edge pairing as an equivalence. -/
def negEquiv (E : ℕ) : Equiv (Fin (2 * E)) (Fin (2 * E)) :=
  ⟨negH, negH, negH_negH, negH_negH⟩

/-- The signed sum over ALL half-edges of the row of the half-edge's
edge vanishes identically: the two half-edges of an edge contribute
opposite signs. -/
theorem sum_signH_rows {E : ℕ} (M : Fin E → Fin E → ℤ) (c : Fin E) :
    ∑ h : Fin (2 * E), signH h * M (edgeOf h) c = 0 := by
  have h1 : ∑ h : Fin (2 * E), signH (negH h) * M (edgeOf (negH h)) c =
      ∑ h : Fin (2 * E), signH h * M (edgeOf h) c :=
    Equiv.sum_comp (negEquiv E) (fun h => signH h * M (edgeOf h) c)
  have h2 : ∑ h : Fin (2 * E), signH (negH h) * M (edgeOf (negH h)) c =
      ∑ h : Fin (2 * E), -(signH h * M (edgeOf h) c) := by
    apply Finset.sum_congr rfl
    intro h _
    rw [signH_negH, edgeOf_negH]
    ring
  rw [h2, Finset.sum_neg_distrib] at h1
  omega

/-- Partition of a sum over all half-edges into face fibers. -/
theorem sum_faces_fiberwise {E : ℕ} (S : Surf E) (hdist : FaceEdgesDistinct S)
    (G : Fin (2 * E) → ℤ) :
    ∑ h : Fin (2 * E), G h =
      ∑ r ∈ Finset.univ.image (faceRep S),
        (G r + G (S.nif r) + G (S.nif (S.nif r))) := by
  rw [← Finset.sum_fiberwise_of_maps_to
    (g := faceRep S) (fun x _ => Finset.mem_image_of_mem _ (Finset.mem_univ x)) G]
  apply Finset.sum_congr rfl
  intro r hr
  obtain ⟨x, _, hx⟩ := Finset.mem_image.mp hr
  have hrrep : faceRep S r = r := by
    rw [← hx]
    exact faceRep_idem S x
  have hfiber : Finset.univ.filter (fun h => faceRep S h = r) =
      insert r (insert (S.nif r) ({S.nif (S.nif r)} : Finset (Fin (2 * E)))) := by
    ext h
    simp only [Finset.mem_filter, Finset.mem_univ, true_and, Finset.mem_insert,
      Finset.mem_singleton]
    constructor
    · intro hh
      have : InFace S r h := inFace_of_faceRep_eq S (by rw [hrrep, hh])
      exact this
    · intro hh
      have : InFace S r h := hh
      rw [faceRep_eq_of_inFace S this, hrrep]
  rw [hfiber]
  have hne1 : r ∉ (insert (S.nif r) ({S.nif (S.nif r)} : Finset (Fin (2 * E)))) := by
    simp only [Finset.mem_insert, Finset.mem_singleton]
    push_neg
    exact ⟨fun hc => nif_ne_self hdist r hc.symm, fun hc => nif_nif_ne_self hdist r hc.symm⟩
  have hne2 : S.nif r ∉ ({S.nif (S.nif r)} : Finset (Fin (2 * E))) := by
    simp only [Finset.mem_singleton]
    exact fun hc => nif_ne_self hdist (S.nif r) hc.symm
  rw [Finset.sum_insert hne1, Finset.sum_insert hne2, Finset.sum_singleton]
  ring

/-- If every non-root face relation is annihilated, so is the root's. -/
theorem faceRel_root_zero {E : ℕ} (S : Surf E) (hdist : FaceEdgesDistinct S)
    (M : Fin E → Fin E → ℤ) (root : Fin (2 * E)) (hroot : faceRep S root = root)
    (hall : ∀ r ∈ Finset.univ.image (faceRep S), r ≠ root →
      ∀ c, faceRel S M r c = 0) (c : Fin E) :
    faceRel S M root c = 0 := by
  have hsum := sum_signH_rows M c
  rw [sum_faces_fiberwise S hdist (fun h => signH h * M (edgeOf h) c)] at hsum
  have hmem : root ∈ Finset.univ.image (faceRep S) := by
    rw [← hroot]
    exact Finset.mem_image_of_mem _ (Finset.mem_univ root)
  rw [Finset.sum_eq_single_of_mem root hmem] at hsum
  · exact hsum
  · intro r hr hrne
    exact hall r hr hrne c

/-- Every face relation is annihilated by the final Gauss-reduced
matrix: non-root faces by their tree edge's elimination step, the root
face by the global sum identity. -/
theorem faceRel_final_zero {E : ℕ} (S : Surf E) (h0 : 0 < E)
    (hdist : FaceEdgesDistinct S)
    (hconn : ∀ h : Fin (2 * E), faceRep S h ∈ (spanning_tree_dfs S h0).visited) :
    ∀ (h : Fin (2 * E)) (c : Fin E), faceRel S (spanning_tree_proj S h0) h c = 0 := by
  have hinv := spanning_tree_dfs_inv S h0
  obtain ⟨_, U2, _, _⟩ := gauss_invariant hdist (spanning_tree_dfs S h0).acc
    (dfs_edge_inj hinv) (dfs_tree_order hinv) (spanning_tree_dfs S h0).acc.length
    (le_refl _)
  have hfull : gaussAfter S (spanning_tree_dfs S h0).acc
      (spanning_tree_dfs S h0).acc.length = spanning_tree_proj S h0 :=
    gaussAfter_full S (spanning_tree_dfs S h0).acc
  rw [hfull] at U2
  have hnonroot : ∀ g, g ∈ (spanning_tree_dfs S h0).visited →
      g ≠ faceRep S ⟨0, by omega⟩ → ∀ c,
      faceRel S (spanning_tree_proj S h0) g c = 0 := by
    intro g hg hgroot c
    obtain ⟨e, he, heq⟩ := hinv.acc_cover g hg hgroot
    obtain ⟨k, hk, hke⟩ := List.mem_iff_getElem.mp he
    have heq2 : faceRep S e = faceRep S g := by
      rw [heq, hinv.vis_rep g hg]
    have hface : InFace S e g := inFace_of_faceRep_eq S heq2
    rw [faceRel_of_inFace S _ hface]
    rw [← hke]
    exact U2 k hk (by omega) c
  intro h c
  by_cases hr : faceRep S h = faceRep S ⟨0, by omega⟩
  · have hroot_rep : faceRep S (faceRep S (⟨0, by omega⟩ : Fin (2 * E))) =
        faceRep S ⟨0, by omega⟩ := faceRep_idem S _
    have hface : InFace S (faceRep S ⟨0, by omega⟩) h :=
      inFace_of_faceRep_eq S (by rw [hroot_rep, hr])
    rw [faceRel_of_inFace S _ hface]
    apply faceRel_root_zero S hdist _ _ hroot_rep
    intro r hrim hrne c'
    obtain ⟨x, _, hx⟩ := Finset.mem_image.mp hrim
    have hrvis : r ∈ (spanning_tree_dfs S h0).visited := hx ▸ hconn x
    exact hnonroot r hrvis hrne c'
  · have hface : InFace S (faceRep S h) h :=
      inFace_of_faceRep_eq S (faceRep_idem S h)
    rw [faceRel_of_inFace S _ hface]
    exact hnonroot (faceRep S h) (hconn h) hr c

/-- The boundary vector of the face of `h`
(`v[i1] = 1; v[i2] = s1*s2; v[i3] = s1*s3` in `boundaries`; later
assignments take precedence, faithful to the source's writes). -/
def bvec {E : ℕ} (S : Surf E) (h : Fin (2 * E)) : Fin E → ℤ :=
  fun c =>
    if c = edgeOf (S.nif (S.nif h)) then signH h * signH (S.nif (S.nif h))
    else if c = edgeOf (S.nif h) then signH h * signH (S.nif h)
    else if c = edgeOf h then 1 else 0

/-- `_faces()`: enumerate each face once, by scanning half-edges in
index order with a seen-set. -/
def facesScan {E : ℕ} (S : Surf E) : List (Fin (2 * E)) :=
  ((List.finRange (2 * E)).foldl
    (fun (st : List (Fin (2 * E)) × List (Fin (2 * E))) h =>
      if h ∈ st.1 then st
      else (st.1 ++ [h, S.nif h, S.nif (S.nif h)], st.2 ++ [h]))
    ([], [])).2

/-- `GL2ROrbitClosure.boundaries`: one signed edge vector per face. -/
def boundaries {E : ℕ} (S : Surf E) : List (Fin E → ℤ) :=
  (facesScan S).map (bvec S)

/-- Pairing a boundary vector against the rows of `M` computes the
(sign-adjusted) face relation. -/
theorem bvec_dot {E : ℕ} {S : Surf E} (hdist : FaceEdgesDistinct S)
    (M : Fin E → Fin E → ℤ) (h : Fin (2 * E)) (j : Fin E) :
    (∑ i, bvec S h i * M i j) = signH h * faceRel S M h j := by
  obtain ⟨hd21, hd31, hd32⟩ := face_edges_distinct hdist h
  have hzero : ∀ x ∈ (Finset.univ : Finset (Fin E)),
      x ∉ insert (edgeOf h) (insert (edgeOf (S.nif h))
        ({edgeOf (S.nif (S.nif h))} : Finset (Fin E))) →
      bvec S h x * M x j = 0 := by
    intro x _ hx
    simp only [Finset.mem_insert, Finset.mem_singleton] at hx
    push_neg at hx
    obtain ⟨hx1, hx2, hx3⟩ := hx
    simp only [bvec]
    rw [if_neg hx3, if_neg hx2, if_neg hx1]
    ring
  rw [← Finset.sum_subset (Finset.subset_univ _) hzero]
  have hni1 : edgeOf h ∉ insert (edgeOf (S.nif h))
      ({edgeOf (S.nif (S.nif h))} : Finset (Fin E)) := by
    simp only [Finset.mem_insert, Finset.mem_singleton]
    push_neg
    exact ⟨Ne.symm hd21, Ne.symm hd31⟩
  have hni2 : edgeOf (S.nif h) ∉ ({edgeOf (S.nif (S.nif h))} : Finset (Fin E)) := by
    simp only [Finset.mem_singleton]
    exact Ne.symm hd32
  rw [Finset.sum_insert hni1, Finset.sum_insert hni2, Finset.sum_singleton]
  have hb1 : bvec S h (edgeOf h) = 1 := by
    simp only [bvec]
    rw [if_neg (Ne.symm hd31), if_neg (Ne.symm hd21)]
    simp
  have hb2 : bvec S h (edgeOf (S.nif h)) = signH h * signH (S.nif h) := by
    simp only [bvec]
    rw [if_neg (Ne.symm hd32)]
    simp
  have hb3 : bvec S h (edgeOf (S.nif (S.nif h))) =
      signH h * signH (S.nif (S.nif h)) := by
    simp only [bvec]
    simp
  rw [hb1, hb2, hb3]
  simp only [faceRel]
  have hs : signH h = 1 ∨ signH h = -1 := by
    unfold signH
    split_ifs
    · right; rfl
    · left; rfl
  rcases hs with hs | hs <;> rw [hs] <;> ring

/-- The positive half-edge `2k` of edge `k`. -/
def posHalf {E : ℕ} (i : Fin E) : Fin (2 * E) :=
  ⟨2 * i.val, by omega⟩

/-- The negative half-edge `2k + 1` of edge `k`. -/
def negHalf {E : ℕ} (i : Fin E) : Fin (2 * E) :=
  ⟨2 * i.val + 1, by omega⟩

theorem edgeOf_eq_iff_halves {E : ℕ} (x : Fin (2 * E)) (i : Fin E) :
    edgeOf x = i ↔ x = posHalf i ∨ x = negHalf i := by
  rcases x with ⟨v, hv⟩
  rcases i with ⟨w, hw⟩
  unfold edgeOf posHalf negHalf
  rw [Fin.ext_iff, Fin.ext_iff, Fin.ext_iff]
  dsimp only
  omega

/-- The spanning set: edges neither of whose half-edges is a tree
half-edge (`__init__`, lines 398-403). -/
def spanningSet {E : ℕ} (S : Surf E) (h0 : 0 < E) : List (Fin E) :=
  (List.finRange E).filter
    (fun i => decide (posHalf i ∉ (spanning_tree_dfs S h0).acc ∧
      negHalf i ∉ (spanning_tree_dfs S h0).acc))

/-- The rows of `self.proj`: the nonzero rows of the transpose of the
Gauss-reduced matrix, i.e. its nonzero columns, over the fraction
field (`__init__`, lines 406-409). -/
def projRows {E : ℕ} (S : Surf E) (h0 : 0 < E) : List (Vec E) :=
  ((List.finRange E).filter
    (fun j => decide (¬ ∀ i, spanning_tree_proj S h0 i j = 0))).map
    (fun j i => ((spanning_tree_proj S h0 i j : ℤ) : ℚ))

/-- Rows showing an identity pattern on a Nodup column list are
linearly independent, so their executable rank is their count. -/
theorem rankL_map_of_unit_pattern {n : ℕ} (Lj : List (Fin n))
    (hnd : Lj.Nodup) (f : Fin n → Vec n)
    (hval : ∀ j ∈ Lj, ∀ j' ∈ Lj, f j j' = if j' = j then 1 else 0) :
    rankL (Lj.map f) = (Lj.map f).length := by
  rw [rankL_eq_length_iff, Fintype.linearIndependent_iff]
  intro g hg k0
  have hk0 : (k0 : ℕ) < Lj.length := by
    have := k0.isLt
    simpa using this
  have heval := congrFun hg (Lj[(k0 : ℕ)])
  rw [Finset.sum_apply] at heval
  simp only [Pi.smul_apply, smul_eq_mul, Pi.zero_apply] at heval
  have hterm : ∀ k : Fin (Lj.map f).length,
      g k * (Lj.map f).get k (Lj[(k0 : ℕ)]) = if k = k0 then g k else 0 := by
    intro k
    have hk : (k : ℕ) < Lj.length := by
      have := k.isLt
      simpa using this
    have hget : (Lj.map f).get k = f (Lj[(k : ℕ)]) := by
      rw [List.get_eq_getElem, List.getElem_map]
    rw [hget, hval _ (List.getElem_mem hk) _ (List.getElem_mem hk0)]
    by_cases hkk : (Lj[(k0 : ℕ)] : Fin n) = Lj[(k : ℕ)]
    · have : k = k0 := by
        apply Fin.ext
        exact ((List.Nodup.getElem_inj_iff hnd).mp hkk.symm)
      rw [if_pos hkk, if_pos this]
      ring
    · have : k ≠ k0 := by
        intro hc
        subst hc
        exact hkk rfl
      rw [if_neg hkk, if_neg this]
      ring
  rw [Finset.sum_congr rfl (fun k _ => hterm k)] at heval
  rw [Finset.sum_ite_eq' Finset.univ k0 (fun k => g k)] at heval
  rw [if_pos (Finset.mem_univ k0)] at heval
  exact heval

/-- The rank identity of `_spanning_tree`: the nonzero rows of the
transposed reduced matrix are exactly the spanning columns, and they
have full rank `d` (the spanning-set size). -/
theorem rank_projRows {E : ℕ} (S : Surf E) (h0 : 0 < E)
    (hdist : FaceEdgesDistinct S) :
    rankL (projRows S h0) = (spanningSet S h0).length := by
  have hinv := spanning_tree_dfs_inv S h0
  obtain ⟨U1, _, U3, _⟩ := gauss_invariant hdist (spanning_tree_dfs S h0).acc
    (dfs_edge_inj hinv) (dfs_tree_order hinv) (spanning_tree_dfs S h0).acc.length
    (le_refl _)
  have hfull : gaussAfter S (spanning_tree_dfs S h0).acc
      (spanning_tree_dfs S h0).acc.length = spanning_tree_proj S h0 :=
    gaussAfter_full S (spanning_tree_dfs S h0).acc
  rw [hfull] at U1 U3
  -- spanning rows are still unit rows
  have hunit : ∀ j : Fin E, posHalf j ∉ (spanning_tree_dfs S h0).acc →
      negHalf j ∉ (spanning_tree_dfs S h0).acc →
      ∀ c, spanning_tree_proj S h0 j c = idMat E j c := by
    intro j hjp hjn c
    apply U1
    intro k hk _
    intro hceq
    rcases (edgeOf_eq_iff_halves _ j).mp hceq with hx | hx
    · exact hjp (hx ▸ List.getElem_mem hk)
    · exact hjn (hx ▸ List.getElem_mem hk)
  -- tree columns vanish
  have htreecol : ∀ j : Fin E, (posHalf j ∈ (spanning_tree_dfs S h0).acc ∨
      negHalf j ∈ (spanning_tree_dfs S h0).acc) →
      ∀ i, spanning_tree_proj S h0 i j = 0 := by
    intro j hj i
    have : ∃ k, ∃ (hk : k < (spanning_tree_dfs S h0).acc.length),
        edgeOf (spanning_tree_dfs S h0).acc[k] = j := by
      rcases hj with hj | hj
      · obtain ⟨k, hk, hke⟩ := List.mem_iff_getElem.mp hj
        exact ⟨k, hk, by rw [hke]; exact (edgeOf_eq_iff_halves _ j).mpr (Or.inl rfl)⟩
      · obtain ⟨k, hk, hke⟩ := List.mem_iff_getElem.mp hj
        exact ⟨k, hk, by rw [hke]; exact (edgeOf_eq_iff_halves _ j).mpr (Or.inr rfl)⟩
    obtain ⟨k, hk, hke⟩ := this
    have := U3 k hk (by omega) i
    rw [hke] at this
    exact this
  -- the two filters agree
  have hfilters : (List.finRange E).filter
      (fun j => decide (¬ ∀ i, spanning_tree_proj S h0 i j = 0)) =
      (List.finRange E).filter
      (fun i => decide (posHalf i ∉ (spanning_tree_dfs S h0).acc ∧
        negHalf i ∉ (spanning_tree_dfs S h0).acc)) := by
    apply List.filter_congr
    intro j _
    rw [decide_eq_decide]
    constructor
    · intro hnz
      by_contra hc
      push_neg at hc
      apply hnz
      intro i
      by_cases hp : posHalf j ∈ (spanning_tree_dfs S h0).acc
      · exact htreecol j (Or.inl hp) i
      · exact htreecol j (Or.inr (hc hp)) i
    · intro hsp hall
      have h1 := hall j
      rw [hunit j hsp.1 hsp.2 j] at h1
      simp [idMat] at h1
  unfold projRows
  rw [hfilters]
  rw [rankL_map_of_unit_pattern _ (List.Nodup.filter _ (List.nodup_finRange E))]
  · rw [List.length_map]
    rfl
  · intro j hj j' hj'
    rw [List.mem_filter] at hj hj'
    have hj2' := of_decide_eq_true hj'.2
    rw [hunit j' hj2'.1 hj2'.2 j]
    unfold idMat
    by_cases he : j' = j
    · rw [if_pos he, if_pos he]
      norm_num
    · rw [if_neg he, if_neg he]
      norm_num

/-- C6.  For every valid (connected, triangulated) surface, the
projection matrix built by the spanning-tree Gauss elimination
annihilates every face-boundary relation (every element of
`boundaries()` pairs to zero against every column), and the rank of the
retained nonzero rows equals the spanning-set size `d`.  Connectivity is
expressed as the source's own assertion
`set(t.keys()) == set(faces)` (line 397): the traversal reaches every
face. -/
theorem claim_C6_projection {E : ℕ} (S : Surf E) (h0 : 0 < E)
    (hdist : FaceEdgesDistinct S)
    (hconn : ∀ h : Fin (2 * E), faceRep S h ∈ (spanning_tree_dfs S h0).visited) :
    (∀ b ∈ boundaries S, ∀ j : Fin E,
      (∑ i, b i * spanning_tree_proj S h0 i j) = 0) ∧
    rankL (projRows S h0) = (spanningSet S h0).length := by
  refine ⟨?_, rank_projRows S h0 hdist⟩
  intro b hb j
  obtain ⟨h, _, rfl⟩ := List.mem_map.mp hb
  rw [bvec_dot hdist _ h j, faceRel_final_zero S h0 hdist hconn h j]
  ring

/-- The square torus, triangulated into two faces: half-edge cycles
`(0, 2, 4)` and `(1, 5, 3)`. -/
def torusSurf : Surf 3 :=
  ⟨![2, 5, 4, 1, 0, 3], by decide⟩

theorem claim_C6_projection_witness :
    (∀ b ∈ boundaries torusSurf, ∀ j : Fin 3,
      (∑ i, b i * spanning_tree_proj torusSurf (by norm_num) i j) = 0) ∧
    rankL (projRows torusSurf (by norm_num)) =
      (spanningSet torusSurf (by norm_num)).length :=
  claim_C6_projection torusSurf (by norm_num)
    (by unfold FaceEdgesDistinct; decide) (by decide)

/-!
## `GL2ROrbitClosure.lift`
Embedding of lines 505-561.  `lift` builds the `(n+1) x n` system: one
indicator row per spanning edge (prescribing the spanning coordinates
to be `v`) and one row per face boundary (prescribing orthogonality to
each boundary vector), and calls the external Sage solver
`A.solve_right(u)`.  The solver is modelled by an executable
eliminate-and-check routine faithful to its contract: it returns a
vector only when it actually solves the system. -/

/-- Eliminate-and-substitute linear solver over the columns. -/
def solveCols {n : ℕ} : List (Fin n) → List (Vec n × ℚ) → Vec n
  | [], _ => 0
  | c :: cs, rows =>
    match rows.find? (fun r => decide (r.1 c ≠ 0)) with
    | none => solveCols cs rows
    | some r =>
      let rows' := rows.map
        (fun s => (fun i => s.1 i - s.1 c / r.1 c * r.1 i,
          s.2 - s.1 c / r.1 c * r.2))
      let x := solveCols cs rows'
      Function.update x c
        ((r.2 - ∑ i, (if i = c then 0 else r.1 i * x i)) / r.1 c)

/-- The rows of the system solved by `lift`, paired with the right-hand
side `u` (`u[:k] = v`, zero on the boundary rows). -/
def liftRows {E : ℕ} (S : Surf E) (h0 : 0 < E)
    (v : Fin (spanningSet S h0).length → ℚ) : List (Vec E × ℚ) :=
  (List.finRange (spanningSet S h0).length).map
    (fun r => (fun i => if i = (spanningSet S h0).get r then (1 : ℚ) else 0, v r)) ++
  (boundaries S).map (fun b => (fun i => ((b i : ℤ) : ℚ), 0))

/-- `GL2ROrbitClosure.lift(v)`: solve the system; the external
`solve_right` returns a solution or raises, modelled as `Option`. -/
def lift {E : ℕ} (S : Surf E) (h0 : 0 < E)
    (v : Fin (spanningSet S h0).length → ℚ) : Option (Vec E) :=
  let x := solveCols (List.finRange E) (liftRows S h0 v)
  if (∀ p ∈ liftRows S h0 v, (∑ i, p.1 i * x i) = p.2) then some x else none

/-- The defining property of any vector returned by `solve_right` on
the lift system. -/
def liftRel {E : ℕ} (S : Surf E) (h0 : 0 < E)
    (v : Fin (spanningSet S h0).length → ℚ) (x : Vec E) : Prop :=
  ∀ p ∈ liftRows S h0 v, (∑ i, p.1 i * x i) = p.2

/-- Any vector returned by the checked solver solves the system. -/
theorem lift_sound {E : ℕ} (S : Surf E) (h0 : 0 < E)
    (v : Fin (spanningSet S h0).length → ℚ) (x : Vec E)
    (hx : lift S h0 v = some x) : liftRel S h0 v x := by
  simp only [lift] at hx
  split_ifs at hx with hcheck
  · rw [Option.some.injEq] at hx
    rw [← hx]
    exact hcheck

theorem sum_indicator_mul {n : ℕ} (a : Fin n) (x : Vec n) :
    (∑ i, (if i = a then (1 : ℚ) else 0) * x i) = x a := by
  have : ∀ i : Fin n, (if i = a then (1 : ℚ) else 0) * x i =
      if i = a then x i else 0 := by
    intro i
    split_ifs <;> ring
  rw [Finset.sum_congr rfl (fun i _ => this i), Finset.sum_ite_eq' Finset.univ a]
  rw [if_pos (Finset.mem_univ a)]

/-- Claim C7 as stated: lift followed by multiplication with the
projection matrix `proj` (whose row for the `r`-th spanning edge is the
corresponding column of the Gauss-reduced matrix) reproduces `v`. -/
def C7Statement : Prop :=
  ∀ (E : ℕ) (S : Surf E) (h0 : 0 < E), FaceEdgesDistinct S →
    (∀ h : Fin (2 * E), faceRep S h ∈ (spanning_tree_dfs S h0).visited) →
    ∀ (v : Fin (spanningSet S h0).length → ℚ) (x : Vec E), liftRel S h0 v x →
    ∀ r : Fin (spanningSet S h0).length,
      (∑ i, ((spanning_tree_proj S h0 i ((spanningSet S h0).get r) : ℤ) : ℚ) * x i)
        = v r

/-- The lift of `v = (1, 0)` on the torus: spanning coordinates
`(1, 0)` on edges 1 and 2, and orthogonal to the face boundary
`(1, 1, 1)`. -/
theorem torus_liftRel :
    liftRel torusSurf (by norm_num)
      (fun r => if (r : ℕ) = 0 then (1 : ℚ) else 0) ![-1, 1, 0] := by
  have hget : ∀ r : Fin (spanningSet torusSurf (by norm_num)).length,
      (spanningSet torusSurf (by norm_num)).get r =
        if (r : ℕ) = 0 then 1 else 2 := by decide
  have hbd : ∀ b ∈ boundaries torusSurf, ∀ i, b i = 1 := by decide
  unfold liftRel liftRows
  intro p hp
  rw [List.mem_append] at hp
  rcases hp with hp | hp
  · obtain ⟨r, _, rfl⟩ := List.mem_map.mp hp
    dsimp only
    rw [sum_indicator_mul, hget r]
    by_cases hr : (r : ℕ) = 0
    · rw [if_pos hr, if_pos hr]
      simp
    · rw [if_neg hr, if_neg hr]
      simp
  · obtain ⟨b, hb, rfl⟩ := List.mem_map.mp hp
    have hb1 := hbd b hb
    dsimp only
    show (∑ i, ((b i : ℤ) : ℚ) * ![-1, 1, 0] i) = 0
    rw [Fin.sum_univ_three, hb1 0, hb1 1, hb1 2]
    norm_num

/-- C7 is false on the code: on the two-triangle torus, the lift of
`v = (1, 0)` is `x = (-1, 1, 0)`, but `proj * x = (2, 1)`, not `v`:
`lift` solves for orthogonality to the boundaries, while `proj` is the
chain projection onto the spanning basis, and the two are not mutually
inverse. -/
theorem claim_C7_counterexample : ¬ C7Statement := by
  intro hclaim
  have h := hclaim 3 torusSurf (by norm_num)
    (by unfold FaceEdgesDistinct; decide) (by decide)
    (fun r => if (r : ℕ) = 0 then (1 : ℚ) else 0) ![-1, 1, 0]
    torus_liftRel ⟨0, by decide⟩
  have hget0 : (spanningSet torusSurf (by norm_num)).get ⟨0, by decide⟩ = 1 := by
    decide
  have hM : ∀ i : Fin 3, spanning_tree_proj torusSurf (by norm_num) i 1 =
      ![-1, 1, 0] i := by decide
  rw [hget0, Fin.sum_univ_three, hM 0, hM 1, hM 2] at h
  norm_num at h

/-- C7 amended: the vector returned by `lift(v)` (any solution of the
lift system) satisfies all face-boundary orthogonality relations, and
restricting it to the spanning-set coordinates reproduces `v`; it is
this coordinate restriction, not multiplication by `proj`, that is a
left inverse of `lift` on the spanning-set basis. -/
theorem claim_C7_lift_spanning_coords {E : ℕ} (S : Surf E) (h0 : 0 < E)
    (v : Fin (spanningSet S h0).length → ℚ) (x : Vec E)
    (hx : liftRel S h0 v x) :
    (∀ r : Fin (spanningSet S h0).length, x ((spanningSet S h0).get r) = v r) ∧
    (∀ b ∈ boundaries S, (∑ i, ((b i : ℤ) : ℚ) * x i) = 0) := by
  constructor
  · intro r
    have hmem : ((fun i => if i = (spanningSet S h0).get r then (1 : ℚ) else 0),
        v r) ∈ liftRows S h0 v := by
      unfold liftRows
      rw [List.mem_append]
      exact Or.inl (List.mem_map.mpr ⟨r, List.mem_finRange r, rfl⟩)
    have := hx _ hmem
    rw [sum_indicator_mul] at this
    exact this
  · intro b hb
    have hmem : ((fun i => ((b i : ℤ) : ℚ)), (0 : ℚ)) ∈ liftRows S h0 v := by
      unfold liftRows
      rw [List.mem_append]
      exact Or.inr (List.mem_map.mpr ⟨b, hb, rfl⟩)
    exact hx _ hmem

theorem claim_C7_lift_spanning_coords_witness :
    (∀ r : Fin (spanningSet torusSurf (by norm_num)).length,
      (![-1, 1, 0] : Vec 3) ((spanningSet torusSurf (by norm_num)).get r) =
        (fun r : Fin (spanningSet torusSurf (by norm_num)).length =>
          if (r : ℕ) = 0 then (1 : ℚ) else 0) r) ∧
    (∀ b ∈ boundaries torusSurf, (∑ i, ((b i : ℤ) : ℚ) * (![-1, 1, 0] : Vec 3) i) = 0) :=
  claim_C7_lift_spanning_coords torusSurf (by norm_num)
    (fun r => if (r : ℕ) = 0 then (1 : ℚ) else 0) ![-1, 1, 0] torus_liftRel

end SageFlatsurf
